import Mathlib

/-!
The package `funcs` of the repository go-testing (`funcs/funcs.go`)

A shallow embedding of the task registry (the HTTP handlers `GetTasks`, `CreateTask`,
`DeleteTask`, `DoneTask` and the package-level slice `Tasks` they share), of the rate
limiter, of the mutex-guarded counter, and of the helpers `ReverseString`, `FuncWithError`,
`FuncEvenSlice`, `FuncCountLettersMap` and `Errors`.

Modelling decisions.

* The package variable `Tasks` is threaded explicitly: every handler takes the
  current slice and returns the value written to the response together with the
  slice it leaves behind.
* Go's `int` is modelled by `Int`.  The only arithmetic the handlers perform on
  an id is `Tasks[len(Tasks)-1].ID + 1`, starting from the seed id 5, so the
  64-bit representation differs from `Int` only after more than `2^63 - 6`
  successful creations.  `strconv.Atoi` keeps its 64-bit range check.  The same
  holds for the interleaved runs of the counter, which start from a zero count
  and only perform `c.count++`.  Where one call can overflow, the result is
  wrapped to 64 bits: the division of `FuncWithError` and the increment of `Inc`
  on an arbitrary counter.
* `gin`, `encoding/json` and `strconv` are libraries outside the repository.
  What the handlers need from them is modelled below: `Atoi` follows
  `strconv.Atoi`, and `ShouldBindJSON` follows `(*gin.Context).ShouldBindJSON`
  applied to the struct `Task`, whose fields carry `json` tags only and no
  `binding` tag.
* A run-time panic (indexing an empty slice) is an explicit outcome.  It
  happens before `Tasks` is assigned, so the slice is left as it was.
* A time source is the sequence of readings its `Now()` calls return, together
  with the number of calls made so far; times and durations are counts of
  nanoseconds.  `Time.Sub` saturates at the bounds of `time.Duration` and
  `Time.Add` at the bounds of the seconds field, as in the package `time`.
* A string is its sequence of bytes.  The conversions between strings and rune
  slices follow the Go runtime, which decodes every byte that is not part of a
  well-formed UTF-8 sequence as U+FFFD.
* Goroutines are interleaved at the granularity of the four steps of `Inc`:
  lock, read, write, unlock.  `Lock` proceeds only on a free mutex.
* A `map[string]int` is the list of its entries, one per key.  The characters
  of a string are the runes a `range` loop over it yields.
-/

namespace GoTesting

/-! ## Data model -/

/-- The struct `Task` of `funcs.go`. -/
structure Task where
  ID : Int
  Name : String
  Done : Bool
deriving DecidableEq, Repr

/-- The initial value of the package variable `Tasks`. -/
def Tasks : List Task :=
  [ ⟨1, "GIT", true⟩,
    ⟨2, "Computer Networks", true⟩,
    ⟨3, "Databases fundamentals", true⟩,
    ⟨4, "Go databases", true⟩,
    ⟨5, "Go testing", false⟩ ]

/-! ## Library behaviour the handlers rely on -/

deriving instance DecidableEq for Except

/-- The two failure kinds of `strconv.Atoi` (`strconv.ErrSyntax`, `strconv.ErrRange`). -/
inductive NumErrKind where
  | ErrSyntax
  | ErrRange
deriving DecidableEq, Repr

/-- The errors a handler can put in a response: the `*strconv.NumError` of `Atoi`
(function name, offending input, kind) or the error reported by `ShouldBindJSON`. -/
inductive GoError where
  | numError (fn : String) (num : String) (kind : NumErrKind)
  | bindError (msg : String)
deriving DecidableEq, Repr

/-- The digit loop of `strconv.ParseUint(s, 10, 64)`: a byte that is not a decimal
digit is a syntax error, a value that no longer fits in 64 unsigned bits a range error. -/
def parseDigits : List Char → Nat → Except NumErrKind Nat
  | [], n => .ok n
  | c :: cs, n =>
    if 48 ≤ c.toNat ∧ c.toNat ≤ 57 then
      let n1 := n * 10 + (c.toNat - 48)
      if n1 > 2 ^ 64 - 1 then .error .ErrRange else parseDigits cs n1
    else .error .ErrSyntax

/-- The function `strconv.Atoi` on a 64-bit platform: optional sign, at least one decimal digit,
value within `[-2^63, 2^63 - 1]`. -/
def Atoi (s : String) : Except GoError Int :=
  match s.toList with
  | [] => .error (.numError "Atoi" s .ErrSyntax)
  | c :: cs =>
    let neg : Bool := c = '-'
    let ds := if c = '-' ∨ c = '+' then cs else c :: cs
    if ds = [] then .error (.numError "Atoi" s .ErrSyntax)
    else
      match parseDigits ds 0 with
      | .error k => .error (.numError "Atoi" s k)
      | .ok un =>
        if ¬ neg ∧ un ≥ 2 ^ 63 then .error (.numError "Atoi" s .ErrRange)
        else if neg ∧ un > 2 ^ 63 then .error (.numError "Atoi" s .ErrRange)
        else .ok (if neg then - (un : Int) else (un : Int))

/-- The request body as `ShouldBindJSON` sees it: either something the JSON decoder rejects
(no body, malformed JSON, a field of the wrong type) with the decoder's message, or a JSON
object in which each of the keys `id`, `name`, `done` is present or absent. -/
inductive Payload where
  | invalid (msg : String)
  | object (id : Option Int) (name : Option String) (done : Option Bool)
deriving DecidableEq, Repr

/-- The call `c.ShouldBindJSON(&newTask)` on a zero `Task`.  A decoder failure is returned as the
error.  Otherwise present keys are stored and absent keys keep the zero value; `Task` declares
no `binding` tag, so the validation pass that follows decoding accepts every decoded value. -/
def ShouldBindJSON : Payload → Except GoError Task
  | .invalid msg => .error (.bindError msg)
  | .object id name done => .ok ⟨id.getD 0, name.getD "", done.getD false⟩

/-! ## Responses -/

/-- The value handed to `c.JSON`: the task slice, one task, or a one-key `gin.H`
whose value is an integer or an error text. -/
inductive Body where
  | tasks (ts : List Task)
  | task (t : Task)
  | hInt (key : String) (val : Int)
  | hErr (key : String) (err : GoError)
deriving DecidableEq, Repr

/-- What a handler call ends in: a `c.JSON(status, body)` or a run-time panic. -/
inductive Outcome where
  | json (status : Nat) (body : Body)
  | panicked (msg : String)
deriving DecidableEq, Repr

/-! ## Handlers -/

/-- The handler `GetTasks`: `c.JSON(http.StatusOK, Tasks)`. -/
def GetTasks (tasks : List Task) : Outcome × List Task :=
  (.json 200 (.tasks tasks), tasks)

/-- The handler `CreateTask`.  `Tasks[len(Tasks)-1]` panics on an empty slice. -/
def CreateTask (tasks : List Task) (body : Payload) : Outcome × List Task :=
  match ShouldBindJSON body with
  | .error err => (.json 400 (.hErr "Bad Request" err), tasks)
  | .ok newTask =>
    match tasks.getLast? with
    | none => (.panicked "runtime error: index out of range [-1]", tasks)
    | some last =>
      let newTask : Task := { newTask with ID := last.ID + 1 }
      (.json 201 (.task newTask), tasks ++ [newTask])

/-- The loop `for i, t := range Tasks` with the test `t.ID == id`:
the index of the first task carrying the id. -/
def findID (id : Int) : List Task → Option Nat
  | [] => none
  | t :: ts => if t.ID = id then some 0 else (findID id ts).map (· + 1)

/-- The handler `DeleteTask`: on the first task with the id,
`Tasks = append(Tasks[:i], Tasks[i+1:]...)`. -/
def DeleteTask (tasks : List Task) (idParam : String) : Outcome × List Task :=
  match Atoi idParam with
  | .error err => (.json 400 (.hErr "Bad ID" err), tasks)
  | .ok delID =>
    match findID delID tasks with
    | some i => (.json 200 (.hInt "deleted" delID), tasks.take i ++ tasks.drop (i + 1))
    | none => (.json 400 (.hInt "Not found" delID), tasks)

/-- The loop `for _, t := range Tasks` of `DoneTask`: `t` is a copy of the element, so
`t.Done = true` changes the copy only; the loop yields the copy it stopped at. -/
def doneLoop (id : Int) : List Task → Option Task
  | [] => none
  | t :: ts => if t.ID = id then some { t with Done := true } else doneLoop id ts

/-- The handler `DoneTask`.  The slice `Tasks` is never assigned. -/
def DoneTask (tasks : List Task) (idParam : String) : Outcome × List Task :=
  match Atoi idParam with
  | .error err => (.json 400 (.hErr "Bad ID" err), tasks)
  | .ok id =>
    match doneLoop id tasks with
    | some t => (.json 200 (.hInt "done" t.ID), tasks)
    | none => (.json 400 (.hInt "Not found" id), tasks)

/-! ## Runs of the server -/

/-- One request to the router of `TaskServer`. -/
inductive Op where
  | get
  | create (body : Payload)
  | delete (idParam : String)
  | done (idParam : String)
deriving DecidableEq, Repr

/-- Dispatch of one request, as registered in `TaskServer`. -/
def step (tasks : List Task) : Op → Outcome × List Task
  | .get => GetTasks tasks
  | .create body => CreateTask tasks body
  | .delete p => DeleteTask tasks p
  | .done p => DoneTask tasks p

/-- The slice after serving the requests in order. -/
def run (tasks : List Task) : List Op → List Task
  | [] => tasks
  | op :: ops => run (step tasks op).2 ops

/-- The ids returned by the successful creations of a run, in order. -/
def createdIDs (tasks : List Task) : List Op → List Int
  | [] => []
  | op :: ops =>
    match op, (step tasks op).1 with
    | .create _, .json 201 (.task t) => t.ID :: createdIDs (step tasks op).2 ops
    | _, _ => createdIDs (step tasks op).2 ops

/-- Ids strictly increase along the slice. -/
def IDsIncreasing (ts : List Task) : Prop :=
  ts.Pairwise (fun a b => a.ID < b.ID)

/-! ## Machine integers -/

/-- The value of a 64-bit two's-complement `int` that holds the mathematical result `x`. -/
def wrapInt64 (x : Int) : Int :=
  (x + 2 ^ 63) % 2 ^ 64 - 2 ^ 63

/-! ## Time and the rate limiter

A `time.Time` without monotonic reading is a signed 64-bit count of seconds since the start of
year 1 and a count of nanoseconds below one second.  It is modelled by the `Int` that counts
its nanoseconds since the start of year 1: `t / 1000000000` is the seconds field and
`t % 1000000000` the nanoseconds field.  A `time.Duration` is modelled by `Int`, its signed
count of nanoseconds, kept within 64 bits by `Time.Sub`. -/

/-- The constant `time.Minute`, in nanoseconds. -/
def Minute : Int := 60 * 1000000000

/-- The largest `time.Duration`. -/
def maxDuration : Int := 2 ^ 63 - 1

/-- The smallest `time.Duration`. -/
def minDuration : Int := - 2 ^ 63

/-- The method `Time.Sub`: the difference `t - u`, replaced by the largest or smallest
duration when it does not fit in 64 bits. -/
def Time.Sub (t u : Int) : Int :=
  if t - u > maxDuration then maxDuration
  else if t - u < minDuration then minDuration
  else t - u

/-- The method `Time.addSec` on the seconds field: the sum `ext + d` in 64 bits when it has
not overflowed, which the code tests by `(sum > t.ext) == (d > 0)`, and otherwise the largest
seconds value `1<<63 - 1` or its negative. -/
def Time.addSec (ext d : Int) : Int :=
  if (wrapInt64 (ext + d) > ext ↔ d > 0) then wrapInt64 (ext + d)
  else if d > 0 then 2 ^ 63 - 1
  else - (2 ^ 63 - 1)

/-- The method `Time.Add`: the duration is split into whole seconds `d / 1e9` and the
remainder `d % 1e9` (both truncated toward zero), the remainder is added to the nanoseconds
field with a carry into the seconds, and the seconds are added by `addSec`, which saturates. -/
def Time.Add (t : Int) (d : Int) : Int :=
  if t % 1000000000 + Int.tmod d 1000000000 ≥ 1000000000 then
    Time.addSec (t / 1000000000) (Int.tdiv d 1000000000 + 1) * 1000000000
      + (t % 1000000000 + Int.tmod d 1000000000 - 1000000000)
  else if t % 1000000000 + Int.tmod d 1000000000 < 0 then
    Time.addSec (t / 1000000000) (Int.tdiv d 1000000000 - 1) * 1000000000
      + (t % 1000000000 + Int.tmod d 1000000000 + 1000000000)
  else
    Time.addSec (t / 1000000000) (Int.tdiv d 1000000000) * 1000000000
      + (t % 1000000000 + Int.tmod d 1000000000)

/-- An implementation of the interface `TimeProvider`, seen from its caller: the readings its
successive `Now()` calls return, and how many calls have been made so far. -/
structure TimeProvider where
  readings : Nat → Int
  calls : Nat

/-- One call of `Now()`: the reading, and the provider after the call. -/
def TimeProvider.Now (tp : TimeProvider) : Int × TimeProvider :=
  (tp.readings tp.calls, { tp with calls := tp.calls + 1 })

/-- The struct `RateLimiter`. -/
structure RateLimiter where
  lastExecution : Int
  timeProvider : TimeProvider

/-- The constructor `NewRateLimiter`: `lastExecution` is `timeProvider.Now().Add(-time.Minute)`. -/
def NewRateLimiter (timeProvider : TimeProvider) : RateLimiter :=
  { lastExecution := Time.Add timeProvider.Now.1 (- Minute),
    timeProvider := timeProvider.Now.2 }

/-- The method `CanExecute`: the answer, the error (its message, or `none` for `nil`) and the
limiter after the call.  The time source is read once for the comparison and, when the call
is admitted, a second time for the value stored in `lastExecution`. -/
def RateLimiter.CanExecute (r : RateLimiter) : (Bool × Option String) × RateLimiter :=
  let currentTime := r.timeProvider.Now.1
  let tp1 := r.timeProvider.Now.2
  if Time.Sub currentTime r.lastExecution < Minute then
    ((false, some "too early, try a little later"), { r with timeProvider := tp1 })
  else
    ((true, none), { lastExecution := tp1.Now.1, timeProvider := tp1.Now.2 })

/-- The limiter after `k` successive `CanExecute` calls. -/
def afterCalls : Nat → RateLimiter → RateLimiter
  | 0, r => r
  | k + 1, r => afterCalls k r.CanExecute.2

/-- The record of `k` successive `CanExecute` calls: for each call, the reading it compared
with `lastExecution` and its boolean answer. -/
def callTrace : Nat → RateLimiter → List (Int × Bool)
  | 0, _ => []
  | k + 1, r => (r.timeProvider.Now.1, r.CanExecute.1.1) :: callTrace k r.CanExecute.2

/-! ## The counter, used by one caller -/

/-- The struct `SafeCounter`: whether the mutex `mu` is held, and the field `count`. -/
structure SafeCounter where
  mu : Bool
  count : Int
deriving DecidableEq, Repr

/-- The call `c.mu.Lock()` when it returns: it needs the mutex free and takes it.  On a held
mutex the call does not return (`none`). -/
def SafeCounter.Lock (c : SafeCounter) : Option SafeCounter :=
  if c.mu then none else some { c with mu := true }

/-- The call `c.mu.Unlock()`: it frees a held mutex; on a free mutex it is a fatal error. -/
def SafeCounter.Unlock (c : SafeCounter) : Option SafeCounter :=
  if c.mu then some { c with mu := false } else none

/-- The method `Inc` run by a single caller: `Lock`, `c.count++`, `Unlock`.  The increment
of an `int` wraps at the largest value. -/
def SafeCounter.Inc (c : SafeCounter) : Option SafeCounter :=
  match c.Lock with
  | none => none
  | some c1 => SafeCounter.Unlock { c1 with count := wrapInt64 (c1.count + 1) }

/-- The method `Value` run by a single caller: `Lock`, evaluate `c.count`, then the deferred
`Unlock`.  It yields the value returned and the counter left behind. -/
def SafeCounter.Value (c : SafeCounter) : Option (Int × SafeCounter) :=
  match c.Lock with
  | none => none
  | some c1 =>
    match c1.Unlock with
    | none => none
    | some c2 => some (c1.count, c2)

/-- The counter after `n` successive `Inc` calls. -/
def incTimes : Nat → SafeCounter → Option SafeCounter
  | 0, c => some c
  | n + 1, c =>
    match c.Inc with
    | none => none
    | some c1 => incTimes n c1

/-! ## Arithmetic helpers and slices -/

/-- The function `FuncWithError`: the result and the error (its message, or `none` for `nil`).
Go's `/` on `int` truncates toward zero and wraps on overflow. -/
def FuncWithError (a b : Int) : Int × Option String :=
  if b = 0 then (0, some "divided by zero")
  else (wrapInt64 (Int.tdiv a b), none)

/-- A Go `[]int`: the nil slice, or a slice with its elements (possibly none). -/
inductive IntSlice where
  | nil
  | mk (elems : List Int)
deriving DecidableEq, Repr

/-- The elements a `range` loop over the slice visits. -/
def IntSlice.toList : IntSlice → List Int
  | .nil => []
  | .mk xs => xs

/-- The loop of `FuncEvenSlice`: `if v%2 == 0 { newSlice = append(newSlice, v) }`, where `%`
is Go's remainder, which has the sign of the dividend. -/
def evenLoop : List Int → List Int → List Int
  | [], newSlice => newSlice
  | v :: vs, newSlice =>
    if Int.tmod v 2 = 0 then evenLoop vs (newSlice ++ [v]) else evenLoop vs newSlice

/-- The function `FuncEvenSlice`: `newSlice` starts as `make([]int, 0)`, a non-nil slice. -/
def FuncEvenSlice (slice : IntSlice) : IntSlice :=
  .mk (evenLoop slice.toList [])

/-! ## Strings and runes

A Go string is a sequence of bytes, modelled by a list of naturals below 256, and a rune by a
natural number.  The conversions `[]rune(s)` and `string(runes)` are the runtime functions
`stringtoslicerune` and `slicerunetostring`; their bit operations are written with `/` and
`%`: `x >> 6` is `x / 64`, `x & 0x3F` is `x % 64`, and `|` on disjoint bits is `+`. -/

/-- The constant `utf8.RuneError`, U+FFFD. -/
def RuneError : Nat := 0xFFFD

/-- The predicate `utf8.ValidRune`: a Unicode scalar value. -/
def ValidRune (r : Nat) : Prop :=
  r ≤ 0x10FFFF ∧ ¬ (0xD800 ≤ r ∧ r ≤ 0xDFFF)

instance (r : Nat) : Decidable (ValidRune r) := by
  unfold ValidRune
  infer_instance

/-- A continuation byte, `locb <= b && b <= hicb`. -/
def isCont (b : Nat) : Prop := 0x80 ≤ b ∧ b ≤ 0xBF

instance (b : Nat) : Decidable (isCont b) := by
  unfold isCont
  infer_instance

/-- One step of a `range` loop over a string: the rune at the start of a non-empty string and
the number of bytes it takes.  A byte below `0x80` is the rune itself; otherwise the runtime
function `decoderune` decides, answering `RuneError` with width 1 for every byte that does not
start a well-formed, shortest-form encoding of a scalar value. -/
def decoderune (s : List Nat) : Nat × Nat :=
  match s with
  | [] => (RuneError, 1)
  | b0 :: t =>
    if b0 < 0x80 then (b0, 1)
    else if 0xC0 ≤ b0 ∧ b0 < 0xE0 then
      match t with
      | b1 :: _ =>
        if isCont b1 ∧ 0x7F < b0 % 32 * 64 + b1 % 64 then (b0 % 32 * 64 + b1 % 64, 2)
        else (RuneError, 1)
      | _ => (RuneError, 1)
    else if 0xE0 ≤ b0 ∧ b0 < 0xF0 then
      match t with
      | b1 :: b2 :: _ =>
        if isCont b1 ∧ isCont b2 ∧ 0x7FF < b0 % 16 * 4096 + b1 % 64 * 64 + b2 % 64
            ∧ ¬ (0xD800 ≤ b0 % 16 * 4096 + b1 % 64 * 64 + b2 % 64
              ∧ b0 % 16 * 4096 + b1 % 64 * 64 + b2 % 64 ≤ 0xDFFF) then
          (b0 % 16 * 4096 + b1 % 64 * 64 + b2 % 64, 3)
        else (RuneError, 1)
      | _ => (RuneError, 1)
    else if 0xF0 ≤ b0 ∧ b0 < 0xF8 then
      match t with
      | b1 :: b2 :: b3 :: _ =>
        if isCont b1 ∧ isCont b2 ∧ isCont b3
            ∧ 0xFFFF < b0 % 8 * 262144 + b1 % 64 * 4096 + b2 % 64 * 64 + b3 % 64
            ∧ b0 % 8 * 262144 + b1 % 64 * 4096 + b2 % 64 * 64 + b3 % 64 ≤ 0x10FFFF then
          (b0 % 8 * 262144 + b1 % 64 * 4096 + b2 % 64 * 64 + b3 % 64, 4)
        else (RuneError, 1)
      | _ => (RuneError, 1)
    else (RuneError, 1)

/-- The `range` loop over a string, collecting the runes; `fuel` bounds the number of runes. -/
def decodeAll : Nat → List Nat → List Nat
  | 0, _ => []
  | _ + 1, [] => []
  | fuel + 1, b :: t =>
    (decoderune (b :: t)).1 :: decodeAll fuel ((b :: t).drop (decoderune (b :: t)).2)

/-- The conversion `[]rune(s)`.  A string has at most as many runes as bytes. -/
def stringtoslicerune (s : List Nat) : List Nat :=
  decodeAll s.length s

/-- The three-byte form written by `encoderune`. -/
def encode3 (r : Nat) : List Nat :=
  [0xE0 + r / 4096, 0x80 + r / 64 % 64, 0x80 + r % 64]

/-- The runtime function `encoderune`: the UTF-8 bytes of a rune; a surrogate or a value above
`0x10FFFF` is written as `RuneError`. -/
def encoderune (r : Nat) : List Nat :=
  if r ≤ 0x7F then [r]
  else if r ≤ 0x7FF then [0xC0 + r / 64, 0x80 + r % 64]
  else if r > 0x10FFFF ∨ (0xD800 ≤ r ∧ r ≤ 0xDFFF) then encode3 RuneError
  else if r ≤ 0xFFFF then encode3 r
  else [0xF0 + r / 262144, 0x80 + r / 4096 % 64, 0x80 + r / 64 % 64, 0x80 + r % 64]

/-- The conversion `string(runes)`. -/
def slicerunetostring : List Nat → List Nat
  | [] => []
  | r :: rs => encoderune r ++ slicerunetostring rs

/-- The loop `for i, j := 0, len(runes)-1; i < j; i, j = i+1, j-1` of `ReverseString`, which
swaps `runes[i]` and `runes[j]`; `fuel` bounds the number of iterations. -/
def swapLoop : Nat → List Nat → Int → Int → List Nat
  | 0, runes, _, _ => runes
  | fuel + 1, runes, i, j =>
    if i < j then
      swapLoop fuel
        ((runes.set i.toNat (runes.getD j.toNat 0)).set j.toNat (runes.getD i.toNat 0))
        (i + 1) (j - 1)
    else runes

/-- The function `ReverseString`.  The loop runs fewer than `len(runes)` times. -/
def ReverseString (s : List Nat) : List Nat :=
  slicerunetostring
    (swapLoop (stringtoslicerune s).length (stringtoslicerune s) 0
      ((stringtoslicerune s).length - 1))

/-! ## The counter with concurrent callers

The goroutines of a run are interleaved step by step.  A call of `Inc` takes four steps:
`c.mu.Lock()`, the read of `c.count`, the write of the incremented value (`c.count++` is a
read followed by a write), and `c.mu.Unlock()`. -/

/-- The next step of a caller inside `Inc`. -/
inductive PC where
  | atLock
  | atLoad
  | atStore (tmp : Int)
  | atUnlock
deriving DecidableEq, Repr

/-- A goroutine that calls `Inc` repeatedly: the number of calls it still has to complete and
its position in the current one. -/
structure Caller where
  remaining : Nat
  pc : PC
deriving DecidableEq, Repr

/-- The shared counter and the goroutines working on it. -/
structure World where
  counter : SafeCounter
  callers : List Caller
deriving DecidableEq, Repr

/-- Caller `i` is scheduled for one step.  A caller that has completed its calls, or that
waits in `Lock` for a held mutex, leaves the world as it is. -/
def stepCaller (w : World) (i : Nat) : World :=
  match w.callers[i]? with
  | none => w
  | some t =>
    if t.remaining = 0 then w
    else
      match t.pc with
      | .atLock =>
        match w.counter.Lock with
        | none => w
        | some c => ⟨c, w.callers.set i { t with pc := .atLoad }⟩
      | .atLoad => ⟨w.counter, w.callers.set i { t with pc := .atStore w.counter.count }⟩
      | .atStore tmp =>
        ⟨{ w.counter with count := tmp + 1 }, w.callers.set i { t with pc := .atUnlock }⟩
      | .atUnlock =>
        match w.counter.Unlock with
        | none => w
        | some c => ⟨c, w.callers.set i ⟨t.remaining - 1, .atLock⟩⟩

/-- The world after the callers named by a schedule have taken their steps in order. -/
def runSchedule (w : World) : List Nat → World
  | [] => w
  | i :: sched => runSchedule (stepCaller w i) sched

/-- A zero-valued counter and `N` goroutines that each are to call `Inc` `K` times. -/
def startWorld (N K : Nat) : World :=
  ⟨⟨false, 0⟩, List.replicate N ⟨K, .atLock⟩⟩

/-- Every caller has completed all its calls. -/
def allFinished (w : World) : Prop :=
  ∀ t ∈ w.callers, t.remaining = 0

instance (w : World) : Decidable (allFinished w) := by
  unfold allFinished
  infer_instance

/-- The increments a caller has still to add to the count. -/
def credit (t : Caller) : Int :=
  match t.pc with
  | .atUnlock => (t.remaining : Int) - 1
  | _ => (t.remaining : Int)

/-- The steps a caller has still to take. -/
def stepsLeft (t : Caller) : Int :=
  match t.pc with
  | .atLock => 4 * (t.remaining : Int)
  | .atLoad => 4 * (t.remaining : Int) - 1
  | .atStore _ => 4 * (t.remaining : Int) - 2
  | .atUnlock => 4 * (t.remaining : Int) - 3

/-- The invariant of the interleaved runs towards a total of `total` increments: the count and
the outstanding increments add up to the total; with the mutex free every caller is outside
`Inc`; with the mutex held exactly one caller is inside, it has a call to complete, and the
value it has read is the current count. -/
structure CounterInv (total : Int) (w : World) : Prop where
  sum : w.counter.count + ((w.callers.map credit).sum) = total
  free : w.counter.mu = false → ∀ t ∈ w.callers, t.pc = .atLock
  held : w.counter.mu = true → ∃ (h : Nat) (t : Caller), w.callers[h]? = some t ∧
    t.pc ≠ PC.atLock ∧ 1 ≤ t.remaining ∧
    (∀ tmp : Int, t.pc = PC.atStore tmp → tmp = w.counter.count) ∧
    ∀ (j : Nat) (u : Caller), j ≠ h → w.callers[j]? = some u → u.pc = PC.atLock

/-! ## Letter counts and the error selector

A Go `map[string]int` is modelled by the list of its entries, one per key; the order of the
entries carries no meaning. -/

/-- The read `count[k]` with its presence flag: the value stored under the key, if any. -/
def mapGet : List (List Nat × Int) → List Nat → Option Int
  | [], _ => none
  | (k1, v) :: m, k => if k1 = k then some v else mapGet m k

/-- The statement `count[k]++`: a key that is absent reads as 0 and is entered with 1. -/
def mapIncr : List (List Nat × Int) → List Nat → List (List Nat × Int)
  | [], k => [(k, 1)]
  | (k1, v) :: m, k => if k1 = k then (k1, v + 1) :: m else (k1, v) :: mapIncr m k

/-- The loop `for _, v := range s` of `FuncCountLettersMap` over the runes of `s`:
`if string(v) != " " { count[string(v)]++ }`.  The conversion `string(v)` of a rune is
`encoderune`, and `" "` is the single byte `0x20`. -/
def countLoop : List Nat → List (List Nat × Int) → List (List Nat × Int)
  | [], count => count
  | v :: vs, count =>
    if encoderune v ≠ [0x20] then countLoop vs (mapIncr count (encoderune v))
    else countLoop vs count

/-- The function `FuncCountLettersMap`, started on the empty map. -/
def FuncCountLettersMap (s : List Nat) : List (List Nat × Int) :=
  countLoop (stringtoslicerune s) []

/-- The function `Errors`: the message of the error returned, or `none` for `nil`. -/
def Errors (a b c : Int) : Option String :=
  if a = b ∧ b = c then none
  else if a ≠ b ∧ b = c then some "a"
  else if a ≠ b ∧ a = c then some "b"
  else some "c"

/-- The number of runes of a sequence that the loop of `FuncCountLettersMap` counts under the
key `k`: those that are not the space and whose string is `k`. -/
def keyCount (k : List Nat) : List Nat → Nat
  | [] => 0
  | v :: vs =>
    if encoderune v ≠ [0x20] ∧ encoderune v = k then keyCount k vs + 1 else keyCount k vs

/-! ## Facts about the two loops -/

theorem findID_eq_none_iff (id : Int) (ts : List Task) :
    findID id ts = none ↔ ∀ t ∈ ts, t.ID ≠ id := by
  induction ts with
  | nil => simp [findID]
  | cons t ts ih =>
    by_cases h : t.ID = id
    · simp [findID, h]
    · simp [findID, h, ih]

theorem findID_isSome_of_mem {id : Int} {ts : List Task} (h : ∃ t ∈ ts, t.ID = id) :
    ∃ i, findID id ts = some i := by
  cases hf : findID id ts with
  | some i => exact ⟨i, rfl⟩
  | none =>
    obtain ⟨t, ht, hid⟩ := h
    exact absurd hid ((findID_eq_none_iff id ts).1 hf t ht)

theorem findID_lt_length {id : Int} {ts : List Task} {i : Nat} (h : findID id ts = some i) :
    i < ts.length := by
  induction ts generalizing i with
  | nil => simp [findID] at h
  | cons t ts ih =>
    by_cases ht : t.ID = id
    · simp [findID, ht] at h
      subst h
      simp
    · cases hf : findID id ts with
      | none => simp [findID, ht, hf] at h
      | some j =>
        simp [findID, ht, hf] at h
        subst h
        have := ih hf
        simp
        omega

theorem doneLoop_eq_none_iff (id : Int) (ts : List Task) :
    doneLoop id ts = none ↔ ∀ t ∈ ts, t.ID ≠ id := by
  induction ts with
  | nil => simp [doneLoop]
  | cons t ts ih =>
    by_cases h : t.ID = id
    · simp [doneLoop, h]
    · simp [doneLoop, h, ih]

theorem doneLoop_some_ID {id : Int} {ts : List Task} {t : Task} (h : doneLoop id ts = some t) :
    t.ID = id := by
  induction ts with
  | nil => simp [doneLoop] at h
  | cons u ts ih =>
    by_cases hu : u.ID = id
    · simp only [doneLoop, hu, if_true, Option.some.injEq] at h
      subst h
      rfl
    · simp [doneLoop, hu] at h
      exact ih h

/-- On a slice with increasing ids, cutting out the first task with the id leaves exactly
the tasks with another id. -/
theorem cut_eq_filter {id : Int} {ts : List Task} {i : Nat} (hs : IDsIncreasing ts)
    (h : findID id ts = some i) :
    ts.take i ++ ts.drop (i + 1) = ts.filter (fun t => decide (t.ID ≠ id)) := by
  induction ts generalizing i with
  | nil => simp [findID] at h
  | cons t ts ih =>
    have hs2 := List.pairwise_cons.1 hs
    by_cases ht : t.ID = id
    · simp [findID, ht] at h
      subst h
      have hall : ∀ u ∈ ts, decide (u.ID ≠ id) = true := by
        intro u hu
        have := hs2.1 u hu
        simp
        omega
      have hfil : ts.filter (fun t => decide (t.ID ≠ id)) = ts := List.filter_eq_self.2 hall
      rw [List.filter_cons_of_neg (by simp [ht]), hfil]
      simp
    · cases hf : findID id ts with
      | none => simp [findID, ht, hf] at h
      | some j =>
        simp [findID, ht, hf] at h
        subst h
        have := ih hs2.2 hf
        rw [List.filter_cons_of_pos (by simp [ht]), ← this]
        simp

theorem cut_sublist (ts : List Task) (i : Nat) : (ts.take i ++ ts.drop (i + 1)).Sublist ts := by
  rw [← List.eraseIdx_eq_take_drop_succ]
  exact List.eraseIdx_sublist ts i

/-! ## The invariant of the runs -/

theorem le_getLast_of_increasing {ts : List Task} {l : Task} (hs : IDsIncreasing ts)
    (hl : ts.getLast? = some l) : ∀ t ∈ ts, t.ID ≤ l.ID := by
  induction ts with
  | nil => simp at hl
  | cons a ts ih =>
    have hs2 := List.pairwise_cons.1 hs
    cases ts with
    | nil =>
      simp at hl
      subst hl
      simp
    | cons b ts =>
      have hl2 : (b :: ts).getLast? = some l := by
        simpa [List.getLast?_cons_cons] using hl
      intro t ht
      rcases List.mem_cons.1 ht with rfl | ht
      · have h1 := hs2.1 b (by simp)
        have h2 := ih hs2.2 hl2 b (by simp)
        omega
      · exact ih hs2.2 hl2 t ht

theorem getLast_mem {ts : List Task} {l : Task} (hl : ts.getLast? = some l) : l ∈ ts :=
  List.mem_of_getLast?_eq_some hl

theorem Tasks_increasing : IDsIncreasing Tasks := by
  unfold IDsIncreasing Tasks
  decide

theorem step_increasing {ts : List Task} (hs : IDsIncreasing ts) (op : Op) :
    IDsIncreasing (step ts op).2 := by
  cases op with
  | get => exact hs
  | create body =>
    cases hB : ShouldBindJSON body with
    | error e => simpa only [step, CreateTask, hB] using hs
    | ok nt =>
      cases hl : ts.getLast? with
      | none => simpa only [step, CreateTask, hB, hl] using hs
      | some l =>
        simp only [step, CreateTask, hB, hl, IDsIncreasing]
        rw [List.pairwise_append]
        refine ⟨hs, by simp, ?_⟩
        intro a ha b hb
        simp at hb
        subst hb
        have := le_getLast_of_increasing hs hl a ha
        simp
        omega
  | delete p =>
    cases hA : Atoi p with
    | error e => simpa only [step, DeleteTask, hA] using hs
    | ok id =>
      cases hf : findID id ts with
      | none => simpa only [step, DeleteTask, hA, hf] using hs
      | some i =>
        simp only [step, DeleteTask, hA, hf]
        exact List.Pairwise.sublist (cut_sublist ts i) hs
  | done p =>
    cases hA : Atoi p with
    | error e => simpa only [step, DoneTask, hA] using hs
    | ok id =>
      cases hf : doneLoop id ts with
      | none => simpa only [step, DoneTask, hA, hf] using hs
      | some t => simpa only [step, DoneTask, hA, hf] using hs

theorem run_increasing {ts : List Task} (hs : IDsIncreasing ts) (ops : List Op) :
    IDsIncreasing (run ts ops) := by
  induction ops generalizing ts with
  | nil => exact hs
  | cons op ops ih => exact ih (step_increasing hs op)

/-! ## The handlers on an absent id -/

theorem DeleteTask_absent {ts : List Task} {p : String} {id : Int} (hp : Atoi p = .ok id)
    (hno : ∀ t ∈ ts, t.ID ≠ id) :
    DeleteTask ts p = (.json 400 (.hInt "Not found" id), ts) := by
  simp only [DeleteTask, hp, (findID_eq_none_iff id ts).2 hno]

theorem DoneTask_absent {ts : List Task} {p : String} {id : Int} (hp : Atoi p = .ok id)
    (hno : ∀ t ∈ ts, t.ID ≠ id) :
    DoneTask ts p = (.json 400 (.hInt "Not found" id), ts) := by
  simp only [DoneTask, hp, (doneLoop_eq_none_iff id ts).2 hno]

theorem DoneTask_state (ts : List Task) (p : String) : (DoneTask ts p).2 = ts := by
  cases hA : Atoi p with
  | error e => simp only [DoneTask, hA]
  | ok id =>
    cases hf : doneLoop id ts with
    | none => simp only [DoneTask, hA, hf]
    | some t => simp only [DoneTask, hA, hf]

theorem DeleteTask_present_state {ts : List Task} {p : String} {id : Int}
    (hs : IDsIncreasing ts) (hp : Atoi p = .ok id) (hin : ∃ t ∈ ts, t.ID = id) :
    (DeleteTask ts p).2 = ts.filter (fun t => decide (t.ID ≠ id)) := by
  obtain ⟨i, hi⟩ := findID_isSome_of_mem hin
  simp only [DeleteTask, hp, hi]
  exact cut_eq_filter hs hi


/-! ## Identifier allocation -/

/-- C1, as stated, fails: in the run "create, delete 6, create" both creations return the
id 6, so the ids assigned in the run (the seed ids followed by the created ids) are not
strictly increasing and an id is handed out twice. -/
theorem C1_id_handed_out_twice :
    createdIDs Tasks
        [.create (.object none (some "X") (some false)), .delete "6",
         .create (.object none (some "Y") (some false))] = [6, 6] ∧
      ¬ List.Pairwise (fun a b : Int => a < b)
        (Tasks.map Task.ID ++ createdIDs Tasks
          [.create (.object none (some "X") (some false)), .delete "6",
           .create (.object none (some "Y") (some false))]) := by
  decide

/-- C1, amended: after any sequence of requests to the initial registry, the id returned by
a successful create is strictly greater than the id of every record that is in the registry
at that moment. -/
theorem C1_created_id_exceeds_live_ids (ops : List Op) (body : Payload) (t : Task)
    (h : (CreateTask (run Tasks ops) body).1 = .json 201 (.task t)) :
    ∀ u ∈ run Tasks ops, u.ID < t.ID := by
  have hs := run_increasing Tasks_increasing ops
  intro u hu
  cases hB : ShouldBindJSON body with
  | error e => simp [CreateTask, hB] at h
  | ok nt =>
    cases hl : (run Tasks ops).getLast? with
    | none => simp [CreateTask, hB, hl] at h
    | some l =>
      simp only [CreateTask, hB, hl, Outcome.json.injEq, Body.task.injEq, true_and] at h
      subst h
      have := le_getLast_of_increasing hs hl u hu
      show u.ID < l.ID + 1
      omega

theorem C1_created_id_exceeds_live_ids_witness :
    (CreateTask (run Tasks [.delete "5", .done "2"]) (.object (some 9) (some "X") none)).1
        = .json 201 (.task ⟨5, "X", false⟩) ∧
      ∀ u ∈ run Tasks [.delete "5", .done "2"], u.ID < (5 : Int) :=
  ⟨by decide,
   C1_created_id_exceeds_live_ids [.delete "5", .done "2"] (.object (some 9) (some "X") none)
     ⟨5, "X", false⟩ (by decide)⟩

/-- C2 fails on the code: on the initial registry `DoneTask` for id 5 answers 200 with
"done": 5, yet it leaves the slice as it was, and the list returned by a following `GetTasks`
still holds the record 5 with `Done = false`. -/
theorem C2_markDone_not_persisted :
    DoneTask Tasks "5" = (.json 200 (.hInt "done" 5), Tasks) ∧
      (GetTasks (DoneTask Tasks "5").2).1 = .json 200 (.tasks Tasks) ∧
      (⟨5, "Go testing", false⟩ : Task) ∈ Tasks ∧
      ∀ t ∈ (DoneTask Tasks "5").2, t.ID = 5 → t.Done = false := by
  decide

/-- C3: in every registry state reached from the seed list, `DeleteTask` on an id that is
present answers 200 with "deleted": id, and the new list is the old one without the record of
that id: one element shorter, no record with that id, the other records unchanged and in
their order. -/
theorem C3_delete_removes_exactly_that_record (ops : List Op) (p : String) (id : Int)
    (hp : Atoi p = .ok id) (hin : ∃ t ∈ run Tasks ops, t.ID = id) :
    (DeleteTask (run Tasks ops) p).1 = .json 200 (.hInt "deleted" id) ∧
      (DeleteTask (run Tasks ops) p).2
        = (run Tasks ops).filter (fun t => decide (t.ID ≠ id)) ∧
      (DeleteTask (run Tasks ops) p).2.length + 1 = (run Tasks ops).length ∧
      ∀ t ∈ (DeleteTask (run Tasks ops) p).2, t.ID ≠ id := by
  have hs := run_increasing Tasks_increasing ops
  obtain ⟨i, hi⟩ := findID_isSome_of_mem hin
  have hlt := findID_lt_length hi
  have hcut := cut_eq_filter hs hi
  simp only [DeleteTask, hp, hi]
  refine ⟨trivial, hcut, ?_, ?_⟩
  · simp only [List.length_append, List.length_take, List.length_drop]
    omega
  · intro t ht
    rw [hcut] at ht
    simpa using (List.mem_filter.1 ht).2

theorem C3_delete_removes_exactly_that_record_witness :
    Atoi "4" = .ok 4 ∧
      (∃ t ∈ run Tasks [.create (.object none (some "X") (some false))], t.ID = 4) ∧
      ((DeleteTask (run Tasks [.create (.object none (some "X") (some false))]) "4").1
          = .json 200 (.hInt "deleted" 4) ∧
        (DeleteTask (run Tasks [.create (.object none (some "X") (some false))]) "4").2
          = (run Tasks [.create (.object none (some "X") (some false))]).filter
              (fun t => decide (t.ID ≠ 4)) ∧
        (DeleteTask (run Tasks [.create (.object none (some "X") (some false))]) "4").2.length + 1
          = (run Tasks [.create (.object none (some "X") (some false))]).length ∧
        ∀ t ∈ (DeleteTask (run Tasks [.create (.object none (some "X") (some false))]) "4").2,
          t.ID ≠ 4) :=
  ⟨by decide, by decide,
   C3_delete_removes_exactly_that_record [.create (.object none (some "X") (some false))] "4" 4
     (by decide) (by decide)⟩

/-- C4: in every non-empty registry state reached from the seed list, `CreateTask` with a
payload carrying a name and a done flag (and any id, or none) answers 201 with the record
whose id is one more than the greatest id in the registry and whose name and done flag are
the payload's; the new list is the old list followed by that record. -/
theorem C4_create_appends_max_plus_one (ops : List Op) (i : Option Int) (n : String) (d : Bool)
    (hne : run Tasks ops ≠ []) :
    ∃ m : Int, (∃ u ∈ run Tasks ops, u.ID = m) ∧ (∀ u ∈ run Tasks ops, u.ID ≤ m) ∧
      CreateTask (run Tasks ops) (.object i (some n) (some d))
        = (.json 201 (.task ⟨m + 1, n, d⟩), run Tasks ops ++ [⟨m + 1, n, d⟩]) := by
  have hs := run_increasing Tasks_increasing ops
  cases hl : (run Tasks ops).getLast? with
  | none => exact absurd (List.getLast?_eq_none_iff.1 hl) hne
  | some l =>
    refine ⟨l.ID, ⟨l, getLast_mem hl, rfl⟩, le_getLast_of_increasing hs hl, ?_⟩
    simp [CreateTask, ShouldBindJSON, hl]

theorem C4_create_appends_max_plus_one_witness :
    run Tasks [.delete "2"] ≠ [] ∧
      ∃ m : Int, (∃ u ∈ run Tasks [.delete "2"], u.ID = m) ∧
        (∀ u ∈ run Tasks [.delete "2"], u.ID ≤ m) ∧
        CreateTask (run Tasks [.delete "2"]) (.object (some 42) (some "X") (some false))
          = (.json 201 (.task ⟨m + 1, "X", false⟩),
             run Tasks [.delete "2"] ++ [⟨m + 1, "X", false⟩]) :=
  ⟨by decide, C4_create_appends_max_plus_one [.delete "2"] (some 42) "X" false (by decide)⟩

/-- C5 fails on the code: deleting the five seed records empties the registry, and
`CreateTask` with a valid payload then panics on `Tasks[len(Tasks)-1]`; no record with id 1 is
returned and the list stays empty. -/
theorem C5_create_on_empty_registry_panics :
    run Tasks [.delete "1", .delete "2", .delete "3", .delete "4", .delete "5"] = [] ∧
      CreateTask (run Tasks [.delete "1", .delete "2", .delete "3", .delete "4", .delete "5"])
          (.object none (some "X") (some false))
        = (.panicked "runtime error: index out of range [-1]", []) := by
  decide

/-! ## Uniqueness of ids, failures, deleted records -/

/-- C6: in every registry state reached from the seed list by creations, completions and
deletions, the ids in the list are pairwise distinct; and any request leaves a list made of
records of the old list, unchanged and in their order (so with their ids), followed by
nothing else than the record a 201 response announces. -/
theorem C6_ids_distinct_and_stable (ops : List Op) :
    ((run Tasks ops).map Task.ID).Nodup ∧
      ∀ op : Op, ∃ kept added : List Task,
        (step (run Tasks ops) op).2 = kept ++ added ∧ kept.Sublist (run Tasks ops) ∧
          ∀ t ∈ added, (step (run Tasks ops) op).1 = .json 201 (.task t) := by
  have hs := run_increasing Tasks_increasing ops
  constructor
  · have h2 : List.Pairwise (fun a b : Int => a < b) ((run Tasks ops).map Task.ID) :=
      List.pairwise_map.2 hs
    exact List.Pairwise.imp (fun h => ne_of_lt h) h2
  · intro op
    generalize run Tasks ops = ts
    cases op with
    | get => exact ⟨ts, [], by simp [step, GetTasks], List.Sublist.refl ts, by simp⟩
    | create body =>
      cases hB : ShouldBindJSON body with
      | error e =>
        exact ⟨ts, [], by simp [step, CreateTask, hB], List.Sublist.refl ts, by simp⟩
      | ok nt =>
        cases hl : ts.getLast? with
        | none =>
          exact ⟨ts, [], by simp [step, CreateTask, hB, hl], List.Sublist.refl ts, by simp⟩
        | some l =>
          exact ⟨ts, [{ nt with ID := l.ID + 1 }], by simp [step, CreateTask, hB, hl],
            List.Sublist.refl ts, by simp [step, CreateTask, hB, hl]⟩
    | delete p =>
      cases hA : Atoi p with
      | error e =>
        exact ⟨ts, [], by simp [step, DeleteTask, hA], List.Sublist.refl ts, by simp⟩
      | ok id =>
        cases hf : findID id ts with
        | none =>
          exact ⟨ts, [], by simp [step, DeleteTask, hA, hf], List.Sublist.refl ts, by simp⟩
        | some i =>
          exact ⟨ts.take i ++ ts.drop (i + 1), [], by simp [step, DeleteTask, hA, hf],
            cut_sublist ts i, by simp⟩
    | done p =>
      exact ⟨ts, [], by simp [step, DoneTask_state], List.Sublist.refl ts, by simp⟩

/-- C7: a request that fails leaves the task list as it was.  `DeleteTask` and `DoneTask`
with a parameter that is no integer answer 400 "Bad ID", with an integer that no record
carries they answer 400 "Not found", `CreateTask` with a body that does not decode answers
400 "Bad Request"; in each case the list after the call is the list before it.  More
generally, any request answered with status 400 leaves the list unchanged. -/
theorem C7_failures_leave_list_unchanged (ts : List Task) (bad absent : String)
    (e : GoError) (id : Int) (msg : String)
    (hbad : Atoi bad = .error e) (habs : Atoi absent = .ok id)
    (hno : ∀ t ∈ ts, t.ID ≠ id) :
    DeleteTask ts bad = (.json 400 (.hErr "Bad ID" e), ts) ∧
      DoneTask ts bad = (.json 400 (.hErr "Bad ID" e), ts) ∧
      DeleteTask ts absent = (.json 400 (.hInt "Not found" id), ts) ∧
      DoneTask ts absent = (.json 400 (.hInt "Not found" id), ts) ∧
      CreateTask ts (.invalid msg) = (.json 400 (.hErr "Bad Request" (.bindError msg)), ts) ∧
      ∀ (op : Op) (b : Body), (step ts op).1 = .json 400 b → (step ts op).2 = ts := by
  refine ⟨by simp only [DeleteTask, hbad], by simp only [DoneTask, hbad],
    DeleteTask_absent habs hno, DoneTask_absent habs hno, rfl, ?_⟩
  intro op b h
  cases op with
  | get => rfl
  | create body =>
    cases hB : ShouldBindJSON body with
    | error e2 => simp only [step, CreateTask, hB]
    | ok nt =>
      cases hl : ts.getLast? with
      | none => simp only [step, CreateTask, hB, hl]
      | some l => simp [step, CreateTask, hB, hl] at h
  | delete p =>
    cases hA : Atoi p with
    | error e2 => simp only [step, DeleteTask, hA]
    | ok k =>
      cases hf : findID k ts with
      | none => simp only [step, DeleteTask, hA, hf]
      | some i => simp [step, DeleteTask, hA, hf] at h
  | done p => exact DoneTask_state ts p

theorem C7_failures_leave_list_unchanged_witness :
    Atoi "abc" = .error (.numError "Atoi" "abc" .ErrSyntax) ∧ Atoi "8" = .ok 8 ∧
      (∀ t ∈ Tasks, t.ID ≠ 8) ∧
      (DeleteTask Tasks "abc" = (.json 400 (.hErr "Bad ID" (.numError "Atoi" "abc" .ErrSyntax)), Tasks) ∧
        DoneTask Tasks "abc" = (.json 400 (.hErr "Bad ID" (.numError "Atoi" "abc" .ErrSyntax)), Tasks) ∧
        DeleteTask Tasks "8" = (.json 400 (.hInt "Not found" 8), Tasks) ∧
        DoneTask Tasks "8" = (.json 400 (.hInt "Not found" 8), Tasks) ∧
        CreateTask Tasks (.invalid "EOF")
          = (.json 400 (.hErr "Bad Request" (.bindError "EOF")), Tasks) ∧
        ∀ (op : Op) (b : Body), (step Tasks op).1 = .json 400 b → (step Tasks op).2 = Tasks) :=
  ⟨by decide, by decide, by decide,
   C7_failures_leave_list_unchanged Tasks "abc" "8" (.numError "Atoi" "abc" .ErrSyntax) 8 "EOF"
     (by decide) (by decide) (by decide)⟩

/-- C8: in every registry state reached from the seed list, once `DeleteTask` has removed an
id that was present, a second `DeleteTask` and a `DoneTask` for the same id both answer
400 "Not found" with that id. -/
theorem C8_deleted_id_is_not_found (ops : List Op) (p q r : String) (id : Int)
    (hp : Atoi p = .ok id) (hq : Atoi q = .ok id) (hr : Atoi r = .ok id)
    (hin : ∃ t ∈ run Tasks ops, t.ID = id) :
    (DeleteTask (run Tasks ops) p).1 = .json 200 (.hInt "deleted" id) ∧
      DeleteTask (DeleteTask (run Tasks ops) p).2 q
        = (.json 400 (.hInt "Not found" id), (DeleteTask (run Tasks ops) p).2) ∧
      DoneTask (DeleteTask (run Tasks ops) p).2 r
        = (.json 400 (.hInt "Not found" id), (DeleteTask (run Tasks ops) p).2) := by
  have hs := run_increasing Tasks_increasing ops
  have hst := DeleteTask_present_state hs hp hin
  have hno : ∀ t ∈ (DeleteTask (run Tasks ops) p).2, t.ID ≠ id := by
    intro t ht
    rw [hst] at ht
    simpa using (List.mem_filter.1 ht).2
  refine ⟨?_, DeleteTask_absent hq hno, DoneTask_absent hr hno⟩
  obtain ⟨i, hi⟩ := findID_isSome_of_mem hin
  simp only [DeleteTask, hp, hi]

theorem C8_deleted_id_is_not_found_witness :
    Atoi "4" = .ok 4 ∧ Atoi "+4" = .ok 4 ∧ Atoi "04" = .ok 4 ∧
      (∃ t ∈ run Tasks [.done "4"], t.ID = 4) ∧
      ((DeleteTask (run Tasks [.done "4"]) "4").1 = .json 200 (.hInt "deleted" 4) ∧
        DeleteTask (DeleteTask (run Tasks [.done "4"]) "4").2 "+4"
          = (.json 400 (.hInt "Not found" 4), (DeleteTask (run Tasks [.done "4"]) "4").2) ∧
        DoneTask (DeleteTask (run Tasks [.done "4"]) "4").2 "04"
          = (.json 400 (.hInt "Not found" 4), (DeleteTask (run Tasks [.done "4"]) "4").2)) :=
  ⟨by decide, by decide, by decide, by decide,
   C8_deleted_id_is_not_found [.done "4"] "4" "+4" "04" 4 (by decide) (by decide) (by decide)
     (by decide)⟩

/-- C9: for every registry state and every integer id, `DoneTask` answers 200 with "done": id
exactly when some record carries the id, and 400 "Not found" with the id otherwise; either way
the list keeps its length, every position keeps its id and name, and every record with
another id keeps its done flag. -/
theorem C9_markDone_answer_and_frame (ts : List Task) (p : String) (id : Int)
    (hp : Atoi p = .ok id) :
    ((DoneTask ts p).1 = .json 200 (.hInt "done" id) ↔ ∃ t ∈ ts, t.ID = id) ∧
      ((DoneTask ts p).1 = .json 400 (.hInt "Not found" id) ↔ ¬ ∃ t ∈ ts, t.ID = id) ∧
      (DoneTask ts p).2.length = ts.length ∧
      ∀ (k : Nat) (t u : Task), (DoneTask ts p).2[k]? = some t → ts[k]? = some u →
        t.ID = u.ID ∧ t.Name = u.Name ∧ (u.ID ≠ id → t.Done = u.Done) := by
  have hst := DoneTask_state ts p
  refine ⟨?_, ?_, by rw [hst], ?_⟩
  · cases hf : doneLoop id ts with
    | none =>
      have hno := (doneLoop_eq_none_iff id ts).1 hf
      simp only [DoneTask, hp, hf]
      constructor
      · intro h
        simp at h
      · rintro ⟨t, ht, hid⟩
        exact absurd hid (hno t ht)
    | some t =>
      have hid := doneLoop_some_ID hf
      simp only [DoneTask, hp, hf, hid, true_iff]
      by_contra hcon
      have hno : ∀ u ∈ ts, u.ID ≠ id := fun u hu hu2 => hcon ⟨u, hu, hu2⟩
      rw [(doneLoop_eq_none_iff id ts).2 hno] at hf
      simp at hf
  · cases hf : doneLoop id ts with
    | none =>
      have hno := (doneLoop_eq_none_iff id ts).1 hf
      simp only [DoneTask, hp, hf, true_iff]
      rintro ⟨t, ht, hid⟩
      exact absurd hid (hno t ht)
    | some t =>
      simp only [DoneTask, hp, hf]
      constructor
      · intro h
        simp at h
      · intro hcon
        have hno : ∀ u ∈ ts, u.ID ≠ id := fun u hu hu2 => hcon ⟨u, hu, hu2⟩
        rw [(doneLoop_eq_none_iff id ts).2 hno] at hf
        simp at hf
  · intro k t u h1 h2
    rw [hst, h2] at h1
    simp only [Option.some.injEq] at h1
    subst h1
    exact ⟨rfl, rfl, fun _ => rfl⟩

theorem C9_markDone_answer_and_frame_witness :
    Atoi "-3" = .ok (-3) ∧
      (((DoneTask Tasks "-3").1 = .json 200 (.hInt "done" (-3)) ↔ ∃ t ∈ Tasks, t.ID = -3) ∧
        ((DoneTask Tasks "-3").1 = .json 400 (.hInt "Not found" (-3)) ↔
          ¬ ∃ t ∈ Tasks, t.ID = -3) ∧
        (DoneTask Tasks "-3").2.length = Tasks.length ∧
        ∀ (k : Nat) (t u : Task), (DoneTask Tasks "-3").2[k]? = some t → Tasks[k]? = some u →
          t.ID = u.ID ∧ t.Name = u.Name ∧ (u.ID ≠ -3 → t.Done = u.Done)) :=
  ⟨by decide, C9_markDone_answer_and_frame Tasks "-3" (-3) (by decide)⟩

/-- C10, as stated, fails: on the initial registry the bodies with no name key, the empty
object and the object holding only "done": true, are answered 201 and a record with the
empty name is appended. -/
theorem C10_body_without_name_is_created :
    CreateTask Tasks (.object none none none)
        = (.json 201 (.task ⟨6, "", false⟩), Tasks ++ [⟨6, "", false⟩]) ∧
      CreateTask Tasks (.object none none (some true))
        = (.json 201 (.task ⟨6, "", true⟩), Tasks ++ [⟨6, "", true⟩]) := by
  decide

/-- C10, amended: `CreateTask` answers 400 "Bad Request" and adds no record whenever the body
fails to decode; a body that decodes but has no name key is not rejected: on a non-empty
registry it is answered 201 and the record, with the empty name, is appended. -/
theorem C10_create_rejects_undecodable_body_only (ts : List Task) (msg : String)
    (i : Option Int) (d : Option Bool) (hne : ts ≠ []) :
    CreateTask ts (.invalid msg) = (.json 400 (.hErr "Bad Request" (.bindError msg)), ts) ∧
      ∃ t : Task, t.Name = "" ∧ t.Done = d.getD false ∧
        CreateTask ts (.object i none d) = (.json 201 (.task t), ts ++ [t]) := by
  refine ⟨rfl, ?_⟩
  cases hl : ts.getLast? with
  | none => exact absurd (List.getLast?_eq_none_iff.1 hl) hne
  | some l =>
    exact ⟨⟨l.ID + 1, "", d.getD false⟩, rfl, rfl, by simp [CreateTask, ShouldBindJSON, hl]⟩

theorem C10_create_rejects_undecodable_body_only_witness :
    Tasks ≠ [] ∧
      (CreateTask Tasks (.invalid "EOF")
          = (.json 400 (.hErr "Bad Request" (.bindError "EOF")), Tasks) ∧
        ∃ t : Task, t.Name = "" ∧ t.Done = (some true).getD false ∧
          CreateTask Tasks (.object none none (some true)) = (.json 201 (.task t), Tasks ++ [t])) :=
  ⟨by decide, C10_create_rejects_undecodable_body_only Tasks "EOF" none (some true) (by decide)⟩

/-! ## Machine integers -/

theorem wrapInt64_of_range {x : Int} (h1 : - 2 ^ 63 ≤ x) (h2 : x < 2 ^ 63) : wrapInt64 x = x := by
  unfold wrapInt64
  omega

/-! ## The rate limiter -/

theorem Add_neg_Minute {t : Int} (hlo : (- 2 ^ 63 + 60) * 1000000000 ≤ t)
    (hhi : t < 2 ^ 63 * 1000000000) : Time.Add t (- Minute) = t - Minute := by
  have h1 : Int.tmod (- Minute) 1000000000 = 0 := by decide
  have h2 : Int.tdiv (- Minute) 1000000000 = -60 := by decide
  have hn1 : ¬ (t % 1000000000 + 0 ≥ 1000000000) := by omega
  have hn2 : ¬ (t % 1000000000 + 0 < 0) := by omega
  have hw : wrapInt64 (t / 1000000000 + -60) = t / 1000000000 + -60 :=
    wrapInt64_of_range (by omega) (by omega)
  have hc : (t / 1000000000 + -60 > t / 1000000000 ↔ (-60 : Int) > 0) := by
    constructor <;> intro h <;> omega
  unfold Time.Add
  rw [h1, h2, if_neg hn1, if_neg hn2]
  unfold Time.addSec
  rw [hw, if_pos hc]
  unfold Minute
  omega

theorem Sub_lt_Minute_iff (t u : Int) : Time.Sub t u < Minute ↔ t - u < Minute := by
  unfold Time.Sub maxDuration minDuration Minute
  split_ifs <;> omega

theorem CanExecute_rejected {r : RateLimiter}
    (h : r.timeProvider.readings r.timeProvider.calls - r.lastExecution < Minute) :
    r.CanExecute = ((false, some "too early, try a little later"),
      { r with timeProvider := { r.timeProvider with calls := r.timeProvider.calls + 1 } }) := by
  have h2 : Time.Sub r.timeProvider.Now.1 r.lastExecution < Minute :=
    (Sub_lt_Minute_iff _ _).2 h
  simp only [RateLimiter.CanExecute, h2, if_true]
  rfl

theorem CanExecute_admitted {r : RateLimiter}
    (h : Minute ≤ r.timeProvider.readings r.timeProvider.calls - r.lastExecution) :
    r.CanExecute = ((true, none),
      { lastExecution := r.timeProvider.readings (r.timeProvider.calls + 1),
        timeProvider := { r.timeProvider with calls := r.timeProvider.calls + 2 } }) := by
  have h2 : ¬ Time.Sub r.timeProvider.Now.1 r.lastExecution < Minute := by
    rw [Sub_lt_Minute_iff]
    exact not_lt.2 h
  simp only [RateLimiter.CanExecute, h2, if_false]
  rfl

/-- C12: for every limiter and time source, when the reading taken by `CanExecute` is less than
60 seconds after `lastExecution`, the call returns false with a non-nil error, leaves
`lastExecution` as it was and has read the time source exactly once. -/
theorem C12_early_call_is_rejected (r : RateLimiter)
    (h : r.timeProvider.readings r.timeProvider.calls - r.lastExecution < Minute) :
    r.CanExecute.1.1 = false ∧ r.CanExecute.1.2 ≠ none ∧
      r.CanExecute.2.lastExecution = r.lastExecution ∧
      r.CanExecute.2.timeProvider.calls = r.timeProvider.calls + 1 ∧
      r.CanExecute.2.timeProvider.readings = r.timeProvider.readings := by
  rw [CanExecute_rejected h]
  exact ⟨rfl, by simp, rfl, rfl, rfl⟩

theorem C12_early_call_is_rejected_witness :
    (30000000000 : Int) - 0 < Minute ∧
      ((RateLimiter.mk 0 ⟨fun _ => 30000000000, 3⟩).CanExecute.1.1 = false ∧
        (RateLimiter.mk 0 ⟨fun _ => 30000000000, 3⟩).CanExecute.1.2 ≠ none ∧
        (RateLimiter.mk 0 ⟨fun _ => 30000000000, 3⟩).CanExecute.2.lastExecution = 0 ∧
        (RateLimiter.mk 0 ⟨fun _ => 30000000000, 3⟩).CanExecute.2.timeProvider.calls = 3 + 1 ∧
        (RateLimiter.mk 0 ⟨fun _ => 30000000000, 3⟩).CanExecute.2.timeProvider.readings
          = fun _ => 30000000000) :=
  ⟨by decide, C12_early_call_is_rejected (RateLimiter.mk 0 ⟨fun _ => 30000000000, 3⟩) (by decide)⟩

/-- C13: for every limiter and time source, when the first reading taken by `CanExecute` is at
least 60 seconds after `lastExecution`, the call returns true with a nil error, has read the
time source exactly twice, and `lastExecution` is the second reading. -/
theorem C13_late_call_is_admitted (r : RateLimiter)
    (h : Minute ≤ r.timeProvider.readings r.timeProvider.calls - r.lastExecution) :
    r.CanExecute.1 = (true, none) ∧
      r.CanExecute.2.timeProvider.calls = r.timeProvider.calls + 2 ∧
      r.CanExecute.2.timeProvider.readings = r.timeProvider.readings ∧
      r.CanExecute.2.lastExecution = r.timeProvider.readings (r.timeProvider.calls + 1) := by
  rw [CanExecute_admitted h]
  exact ⟨rfl, rfl, rfl, rfl⟩

theorem C13_late_call_is_admitted_witness :
    Minute ≤ (fun n : Nat => (61000000000 : Int) + n) 0 - 0 ∧
      ((RateLimiter.mk 0 ⟨fun n => 61000000000 + n, 0⟩).CanExecute.1 = (true, none) ∧
        (RateLimiter.mk 0 ⟨fun n => 61000000000 + n, 0⟩).CanExecute.2.timeProvider.calls
          = 0 + 2 ∧
        (RateLimiter.mk 0 ⟨fun n => 61000000000 + n, 0⟩).CanExecute.2.timeProvider.readings
          = (fun n : Nat => (61000000000 : Int) + n) ∧
        (RateLimiter.mk 0 ⟨fun n => 61000000000 + n, 0⟩).CanExecute.2.lastExecution
          = (fun n : Nat => (61000000000 : Int) + n) (0 + 1)) :=
  ⟨by decide, C13_late_call_is_admitted (RateLimiter.mk 0 ⟨fun n => 61000000000 + n, 0⟩)
    (by decide)⟩

/-- C14, as stated, fails: with a time source that reads 100 s at construction and 40 s
afterwards, the first `CanExecute` on the fresh limiter returns false with an error.  It also
fails for a time source that always reads the time 30 s after the smallest seconds value
`Time.Add` can produce: subtracting a minute at construction saturates, `lastExecution` is
only 30 s before the reading, and the first call is rejected. -/
theorem C14_first_call_rejected_when_clock_steps_back :
    (NewRateLimiter ⟨fun n => if n = 0 then 100000000000 else 40000000000, 0⟩).CanExecute.1
        = (false, some "too early, try a little later") ∧
      (NewRateLimiter ⟨fun _ => -9223372036854775777000000000, 0⟩).lastExecution
        = -9223372036854775807000000000 ∧
      (NewRateLimiter ⟨fun _ => -9223372036854775777000000000, 0⟩).CanExecute.1
        = (false, some "too early, try a little later") := by
  decide

/-- C14, amended: for every time source whose reading at construction is at least 60 seconds
after the smallest time, so that subtracting a minute does not saturate, and whose reading at
the first `CanExecute` call is not earlier than its reading at construction, the first
`CanExecute` on a limiter freshly built by `NewRateLimiter` returns true with a nil error;
construction sets `lastExecution` to the construction-time reading minus 60 seconds. -/
theorem C14_first_call_admitted (tp : TimeProvider)
    (hlo : (- 2 ^ 63 + 60) * 1000000000 ≤ tp.readings tp.calls)
    (hhi : tp.readings tp.calls < 2 ^ 63 * 1000000000)
    (h : tp.readings tp.calls ≤ tp.readings (tp.calls + 1)) :
    (NewRateLimiter tp).lastExecution = tp.readings tp.calls - Minute ∧
      (NewRateLimiter tp).CanExecute.1 = (true, none) := by
  have hl : (NewRateLimiter tp).lastExecution = tp.readings tp.calls - Minute := by
    simp only [NewRateLimiter, TimeProvider.Now]
    exact Add_neg_Minute hlo hhi
  refine ⟨hl, ?_⟩
  have hadm : Minute ≤ (NewRateLimiter tp).timeProvider.readings
      (NewRateLimiter tp).timeProvider.calls - (NewRateLimiter tp).lastExecution := by
    rw [hl]
    simp only [NewRateLimiter, TimeProvider.Now]
    omega
  rw [CanExecute_admitted hadm]

theorem C14_first_call_admitted_witness :
    ((- 2 ^ 63 + 60) * 1000000000 ≤ (fun _ : Nat => (63900000000000000000 : Int)) 0 ∧
      (fun _ : Nat => (63900000000000000000 : Int)) 0 < 2 ^ 63 * 1000000000 ∧
      (fun _ : Nat => (63900000000000000000 : Int)) 0
        ≤ (fun _ : Nat => (63900000000000000000 : Int)) (0 + 1)) ∧
      ((NewRateLimiter ⟨fun _ => 63900000000000000000, 0⟩).lastExecution
          = (fun _ : Nat => (63900000000000000000 : Int)) 0 - Minute ∧
        (NewRateLimiter ⟨fun _ => 63900000000000000000, 0⟩).CanExecute.1 = (true, none)) :=
  ⟨by decide,
   C14_first_call_admitted ⟨fun _ => 63900000000000000000, 0⟩ (by decide) (by decide)
     (by decide)⟩

theorem rejected_calls {k : Nat} : ∀ {r : RateLimiter},
    (∀ j, j < k →
      r.timeProvider.readings (r.timeProvider.calls + j) - r.lastExecution < Minute) →
    afterCalls k r
        = { r with timeProvider := { r.timeProvider with calls := r.timeProvider.calls + k } } ∧
      ∀ x ∈ callTrace k r, x.2 = false := by
  induction k with
  | zero =>
    intro r _
    exact ⟨rfl, by simp [callTrace]⟩
  | succ k ih =>
    intro r h
    have h0 := CanExecute_rejected (h 0 (Nat.succ_pos k))
    have hrest : ∀ j, j < k →
        r.CanExecute.2.timeProvider.readings (r.CanExecute.2.timeProvider.calls + j)
          - r.CanExecute.2.lastExecution < Minute := by
      intro j hj
      rw [h0]
      have := h (j + 1) (Nat.succ_lt_succ hj)
      simpa only [Nat.add_assoc, Nat.add_comm 1 j] using this
    obtain ⟨ih1, ih2⟩ := ih hrest
    constructor
    · simp only [afterCalls, ih1]
      rw [h0]
      simp only [Nat.add_assoc, Nat.add_comm 1 k]
    · intro x hx
      simp only [callTrace, List.mem_cons] at hx
      rcases hx with rfl | hx
      · rw [h0]
      · exact ih2 x hx

theorem admitted_readings_late {L : Int} {k : Nat} : ∀ {r : RateLimiter},
    L ≤ r.lastExecution →
    (∀ m, r.timeProvider.calls ≤ m → L ≤ r.timeProvider.readings m) →
    ∀ x ∈ callTrace k r, x.2 = true → L + Minute ≤ x.1 := by
  induction k with
  | zero =>
    intro r _ _ x hx
    simp [callTrace] at hx
  | succ k ih =>
    intro r h1 h2 x hx
    simp only [callTrace, List.mem_cons] at hx
    by_cases hc : r.timeProvider.readings r.timeProvider.calls - r.lastExecution < Minute
    · have h0 := CanExecute_rejected hc
      rcases hx with rfl | hx
      · intro hb
        rw [h0] at hb
        simp at hb
      · refine ih ?_ ?_ x hx
        · rw [h0]
          exact h1
        · rw [h0]
          intro m hm
          exact h2 m (Nat.le_of_succ_le hm)
    · have hc2 : Minute ≤ r.timeProvider.readings r.timeProvider.calls - r.lastExecution :=
        not_lt.1 hc
      have h0 := CanExecute_admitted hc2
      rcases hx with rfl | hx
      · intro _
        show L + Minute ≤ r.timeProvider.readings r.timeProvider.calls
        omega
      · refine ih ?_ ?_ x hx
        · rw [h0]
          exact h2 _ (Nat.le_succ _)
        · rw [h0]
          intro m hm
          exact h2 m (Nat.le_of_succ_le (Nat.le_of_succ_le hm))

/-- C11: for every time source whose successive readings never decrease and every sequence of
`CanExecute` calls on one limiter, whenever two calls both return true, the reading on which
the later one was admitted is at least 60 seconds after the reading on which the earlier one
was admitted, whatever calls lie between them. -/
theorem C11_admissions_a_minute_apart (r : RateLimiter)
    (hmono : ∀ m n, m ≤ n → r.timeProvider.readings m ≤ r.timeProvider.readings n) (k : Nat) :
    List.Pairwise (fun x y : Int × Bool => x.2 = true → y.2 = true → x.1 + Minute ≤ y.1)
      (callTrace k r) := by
  induction k generalizing r with
  | zero => simp [callTrace]
  | succ k ih =>
    simp only [callTrace, List.pairwise_cons]
    by_cases hc : r.timeProvider.readings r.timeProvider.calls - r.lastExecution < Minute
    · have h0 := CanExecute_rejected hc
      constructor
      · intro y _ hb
        rw [h0] at hb
        simp at hb
      · apply ih
        rw [h0]
        exact hmono
    · have h0 := CanExecute_admitted (not_lt.1 hc)
      constructor
      · intro y hy _ hyb
        refine admitted_readings_late ?_ ?_ y hy hyb
        · rw [h0]
          exact hmono _ _ (Nat.le_succ _)
        · rw [h0]
          intro m hm
          exact hmono _ _ (Nat.le_of_succ_le (Nat.le_of_succ_le hm))
      · apply ih
        rw [h0]
        exact hmono

set_option maxRecDepth 4000 in
theorem C11_admissions_a_minute_apart_witness :
    (∀ m n : Nat, m ≤ n → (fun i : Nat => (25000000000 : Int) * i) m
        ≤ (fun i : Nat => (25000000000 : Int) * i) n) ∧
      callTrace 4 (NewRateLimiter ⟨fun i => 25000000000 * i, 0⟩)
        = [(25000000000, true), (75000000000, false), (100000000000, false),
           (125000000000, true)] ∧
      List.Pairwise (fun x y : Int × Bool => x.2 = true → y.2 = true → x.1 + Minute ≤ y.1)
        (callTrace 4 (NewRateLimiter ⟨fun i => 25000000000 * i, 0⟩)) :=
  ⟨fun m n h => by simp only; omega, by decide,
   C11_admissions_a_minute_apart (NewRateLimiter ⟨fun i => 25000000000 * i, 0⟩)
     (fun m n h => by simp only [NewRateLimiter, TimeProvider.Now]; omega) 4⟩

/-- C15: a rejected call does not restart the waiting period.  For a limiter whose
`lastExecution` is `t`, the next `k` calls, if each reads a time in `[t, t + 60 s)`, are all
rejected and leave `lastExecution` at `t`, and the call after them, if it reads a time of at
least `t + 60 s`, is admitted, whatever `k` is. -/
theorem C15_rejections_do_not_restart_the_wait (r : RateLimiter) (t : Int) (k : Nat)
    (ht : r.lastExecution = t)
    (hin : ∀ j, j < k → t ≤ r.timeProvider.readings (r.timeProvider.calls + j) ∧
      r.timeProvider.readings (r.timeProvider.calls + j) < t + Minute)
    (hout : t + Minute ≤ r.timeProvider.readings (r.timeProvider.calls + k)) :
    (∀ x ∈ callTrace k r, x.2 = false) ∧ (afterCalls k r).lastExecution = t ∧
      (afterCalls k r).CanExecute.1 = (true, none) := by
  have hrej : ∀ j, j < k →
      r.timeProvider.readings (r.timeProvider.calls + j) - r.lastExecution < Minute := by
    intro j hj
    have := (hin j hj).2
    omega
  obtain ⟨h1, h2⟩ := rejected_calls hrej
  refine ⟨h2, by rw [h1]; exact ht, ?_⟩
  have hadm : Minute ≤ (afterCalls k r).timeProvider.readings (afterCalls k r).timeProvider.calls
      - (afterCalls k r).lastExecution := by
    rw [h1]
    show Minute ≤ r.timeProvider.readings (r.timeProvider.calls + k) - r.lastExecution
    omega
  rw [CanExecute_admitted hadm]

theorem C15_rejections_do_not_restart_the_wait_witness :
    (NewRateLimiter ⟨fun i => if i < 3 then 0 else if i = 3 then 30000000000
        else 61000000000, 0⟩).CanExecute.1 = (true, none) ∧
      (NewRateLimiter ⟨fun i => if i < 3 then 0 else if i = 3 then 30000000000
        else 61000000000, 0⟩).CanExecute.2.lastExecution = 0 ∧
      (∀ x ∈ callTrace 1 (NewRateLimiter ⟨fun i => if i < 3 then 0 else if i = 3
          then 30000000000 else 61000000000, 0⟩).CanExecute.2, x.2 = false) ∧
      (afterCalls 1 (NewRateLimiter ⟨fun i => if i < 3 then 0 else if i = 3
          then 30000000000 else 61000000000, 0⟩).CanExecute.2).lastExecution = 0 ∧
      (afterCalls 1 (NewRateLimiter ⟨fun i => if i < 3 then 0 else if i = 3
          then 30000000000 else 61000000000, 0⟩).CanExecute.2).CanExecute.1 = (true, none) :=
  ⟨by decide, by decide,
   C15_rejections_do_not_restart_the_wait
     (NewRateLimiter ⟨fun i => if i < 3 then 0 else if i = 3 then 30000000000
        else 61000000000, 0⟩).CanExecute.2 0 1 (by decide) (by decide) (by decide)⟩

/-! ## The counter with one caller -/

theorem Inc_free {v : Int} (h1 : - 2 ^ 63 ≤ v) (h2 : v < 2 ^ 63 - 1) :
    SafeCounter.Inc ⟨false, v⟩ = some ⟨false, v + 1⟩ := by
  have hw : wrapInt64 (v + 1) = v + 1 := wrapInt64_of_range (by omega) (by omega)
  simp [SafeCounter.Inc, SafeCounter.Lock, SafeCounter.Unlock, hw]

theorem incTimes_free (n : Nat) : ∀ (v : Int), - 2 ^ 63 ≤ v → v + (n : Int) < 2 ^ 63 →
    incTimes n ⟨false, v⟩ = some ⟨false, v + n⟩ := by
  induction n with
  | zero =>
    intro v _ _
    simp [incTimes]
  | succ n ih =>
    intro v h1 h2
    push_cast at h2
    rw [incTimes, Inc_free h1 (by omega)]
    simp only
    rw [ih (v + 1) (by omega) (by omega)]
    congr 2
    push_cast
    omega

/-- C17, as stated, fails: `Inc` does not increase the count by 1 when the count is the
largest `int`; the increment wraps to the smallest `int`. -/
theorem C17_increment_wraps_at_largest_int :
    SafeCounter.Inc ⟨false, 9223372036854775807⟩ = some ⟨false, -9223372036854775808⟩ ∧
      SafeCounter.Inc ⟨false, 9223372036854775807⟩
        ≠ some ⟨false, 9223372036854775807 + 1⟩ := by
  decide

/-- C17, amended: run by one caller, `Inc` increases the count by exactly 1 unless the count
is the largest `int`, where it wraps to the smallest `int`, and `Value` returns the count and
leaves the counter as it was; so after `n` calls of `Inc` on a zero-valued counter `Value`
returns `n`, for every `n` below `2^63`. -/
theorem C17_sequential_counter (v : Int) (n : Nat) (hv1 : - 2 ^ 63 ≤ v) (hv2 : v < 2 ^ 63 - 1)
    (hn : (n : Int) < 2 ^ 63) :
    SafeCounter.Inc ⟨false, v⟩ = some ⟨false, v + 1⟩ ∧
      SafeCounter.Inc ⟨false, 2 ^ 63 - 1⟩ = some ⟨false, - 2 ^ 63⟩ ∧
      (∀ u : Int, SafeCounter.Value ⟨false, u⟩ = some (u, ⟨false, u⟩)) ∧
      ∃ c : SafeCounter, incTimes n ⟨false, 0⟩ = some c ∧ c.Value = some ((n : Int), c) := by
  refine ⟨Inc_free hv1 hv2, by decide, fun u => rfl, ⟨⟨false, n⟩, ?_, rfl⟩⟩
  rw [incTimes_free n 0 (by omega) (by omega)]
  simp

theorem C17_sequential_counter_witness :
    (- 2 ^ 63 ≤ (41 : Int) ∧ (41 : Int) < 2 ^ 63 - 1 ∧ ((3 : Nat) : Int) < 2 ^ 63) ∧
      (SafeCounter.Inc ⟨false, 41⟩ = some ⟨false, 41 + 1⟩ ∧
        SafeCounter.Inc ⟨false, 2 ^ 63 - 1⟩ = some ⟨false, - 2 ^ 63⟩ ∧
        (∀ u : Int, SafeCounter.Value ⟨false, u⟩ = some (u, ⟨false, u⟩)) ∧
        ∃ c : SafeCounter, incTimes 3 ⟨false, 0⟩ = some c ∧
          c.Value = some (((3 : Nat) : Int), c)) ∧
      incTimes 3 ⟨false, 0⟩ = some ⟨false, 3⟩ :=
  ⟨by decide, C17_sequential_counter 41 3 (by decide) (by decide) (by decide), by decide⟩

/-! ## Division and even elements -/

theorem evenLoop_eq_filter (vs acc : List Int) :
    evenLoop vs acc = acc ++ vs.filter (fun v => decide ((2 : Int) ∣ v)) := by
  induction vs generalizing acc with
  | nil => simp [evenLoop]
  | cons v vs ih =>
    by_cases h : Int.tmod v 2 = 0
    · have hd : (2 : Int) ∣ v := Int.dvd_iff_tmod_eq_zero.2 h
      simp [evenLoop, h, ih, hd]
    · have hd : ¬ (2 : Int) ∣ v := fun hd => h (Int.dvd_iff_tmod_eq_zero.1 hd)
      simp [evenLoop, h, ih, hd]

/-- C20: for every slice of integers, negative ones included, `FuncEvenSlice` returns a
non-nil slice holding exactly the elements divisible by 2, each as often as it occurs and in
the original order; it is the empty non-nil slice when there are none. -/
theorem C20_even_elements_in_order (slice : IntSlice) :
    FuncEvenSlice slice = .mk (slice.toList.filter (fun v => decide ((2 : Int) ∣ v))) ∧
      FuncEvenSlice slice ≠ .nil ∧
      ((∀ v ∈ slice.toList, ¬ (2 : Int) ∣ v) → FuncEvenSlice slice = .mk []) ∧
      FuncEvenSlice (.mk [1, 2, 3, 4, 5, 6]) = .mk [2, 4, 6] ∧
      FuncEvenSlice (.mk [-4, -3, 0, -4]) = .mk [-4, 0, -4] := by
  have h : FuncEvenSlice slice = .mk (slice.toList.filter (fun v => decide ((2 : Int) ∣ v))) := by
    simp [FuncEvenSlice, evenLoop_eq_filter]
  refine ⟨h, by simp [FuncEvenSlice], ?_, by decide, by decide⟩
  intro hnone
  rw [h]
  congr 1
  exact List.filter_eq_nil_iff.2 (fun v hv => by simpa using hnone v hv)

theorem C20_even_elements_in_order_witness :
    (∀ v ∈ (IntSlice.mk [1, 3, -5]).toList, ¬ (2 : Int) ∣ v) ∧
      FuncEvenSlice (.mk [1, 3, -5]) = .mk [] :=
  ⟨by decide, (C20_even_elements_in_order (.mk [1, 3, -5])).2.2.1 (by decide)⟩

theorem tdiv_in_range {a b : Int} (ha1 : - 2 ^ 63 ≤ a) (ha2 : a < 2 ^ 63) (hb : b ≠ 0)
    (hne : ¬ (a = - 2 ^ 63 ∧ b = -1)) :
    - 2 ^ 63 ≤ Int.tdiv a b ∧ Int.tdiv a b < 2 ^ 63 := by
  by_cases h1 : b = 1
  · subst h1
    rw [Int.tdiv_one]
    exact ⟨ha1, ha2⟩
  by_cases h2 : b = -1
  · subst h2
    rw [Int.tdiv_neg, Int.tdiv_one]
    have : a ≠ - 2 ^ 63 := fun h => hne ⟨h, rfl⟩
    omega
  have hq : (Int.tdiv a b).natAbs = a.natAbs / b.natAbs := Int.natAbs_tdiv a b
  have hb2 : 2 ≤ b.natAbs := by omega
  have hle : a.natAbs / b.natAbs ≤ a.natAbs / 2 := Nat.div_le_div_left hb2 (by decide)
  omega

/-- C19, as stated, fails: for the most negative `int` divided by -1 the quotient truncated
toward zero is `2^63`, which is no `int`, and `FuncWithError` returns the dividend itself. -/
theorem C19_overflowing_quotient :
    FuncWithError (-9223372036854775808) (-1) = (-9223372036854775808, none) ∧
      Int.tdiv (-9223372036854775808) (-1) = 9223372036854775808 ∧
      (FuncWithError (-9223372036854775808) (-1)).1
        ≠ Int.tdiv (-9223372036854775808) (-1) := by
  decide

/-- C19, amended: for all `int` values `a` and `b`, `FuncWithError` returns an error exactly
when `b = 0`; for `b = 0` it returns 0 and the error "divided by zero"; for `b ≠ 0` it returns
a nil error and the quotient of `a` by `b` truncated toward zero, except for the most negative
`a` and `b = -1`, where it returns `a`. -/
theorem C19_division_with_error (a b : Int)
    (ha1 : - 2 ^ 63 ≤ a) (ha2 : a < 2 ^ 63) (hb1 : - 2 ^ 63 ≤ b) (hb2 : b < 2 ^ 63) :
    ((FuncWithError a b).2 ≠ none ↔ b = 0) ∧
      (b = 0 → FuncWithError a b = (0, some "divided by zero")) ∧
      (b ≠ 0 → ¬ (a = - 2 ^ 63 ∧ b = -1) → FuncWithError a b = (Int.tdiv a b, none)) ∧
      (a = - 2 ^ 63 → b = -1 → FuncWithError a b = (a, none)) := by
  refine ⟨?_, ?_, ?_, ?_⟩
  · by_cases hb : b = 0
    · simp [FuncWithError, hb]
    · simp [FuncWithError, hb]
  · intro hb
    simp [FuncWithError, hb]
  · intro hb hne
    obtain ⟨h1, h2⟩ := tdiv_in_range ha1 ha2 hb hne
    simp only [FuncWithError, hb, if_false, wrapInt64_of_range h1 h2]
  · intro ha hb
    subst ha hb
    decide

theorem C19_division_with_error_witness :
    (- 2 ^ 63 ≤ (10 : Int) ∧ (10 : Int) < 2 ^ 63 ∧ - 2 ^ 63 ≤ (2 : Int) ∧ (2 : Int) < 2 ^ 63) ∧
      (((FuncWithError 10 2).2 ≠ none ↔ (2 : Int) = 0) ∧
        ((2 : Int) = 0 → FuncWithError 10 2 = (0, some "divided by zero")) ∧
        ((2 : Int) ≠ 0 → ¬ ((10 : Int) = - 2 ^ 63 ∧ (2 : Int) = -1) →
          FuncWithError 10 2 = (Int.tdiv 10 2, none)) ∧
        ((10 : Int) = - 2 ^ 63 → (2 : Int) = -1 → FuncWithError 10 2 = (10, none))) ∧
      FuncWithError 10 2 = (5, none) ∧ FuncWithError 10 0 = (0, some "divided by zero") ∧
      FuncWithError (-7) 2 = (-3, none) :=
  ⟨by decide,
   C19_division_with_error 10 2 (by decide) (by decide) (by decide) (by decide),
   by decide, by decide, by decide⟩

/-! ## Reversal of strings -/

theorem getD_at_length (a : List Nat) (x : Nat) (r : List Nat) (d : Nat) :
    (a ++ x :: r).getD a.length d = x := by
  induction a with
  | nil => rfl
  | cons y a ih => simpa using ih

theorem set_at_length (a : List Nat) (x y : Nat) (r : List Nat) :
    (a ++ x :: r).set a.length y = a ++ y :: r := by
  induction a with
  | nil => rfl
  | cons z a ih => simp

/-- The swap loop started on the middle part `m` of `a ++ m ++ b` reverses `m` in place. -/
theorem swapLoop_middle (fuel : Nat) : ∀ (a m b : List Nat), m.length ≤ fuel →
    swapLoop fuel (a ++ m ++ b) (a.length : Int) ((a.length + m.length : Nat) - 1 : Int)
      = a ++ m.reverse ++ b := by
  induction fuel with
  | zero =>
    intro a m b h
    have : m = [] := List.length_eq_zero.1 (Nat.le_zero.1 h)
    subst this
    simp [swapLoop]
  | succ fuel ih =>
    intro a m b h
    cases m with
    | nil => simp [swapLoop]
    | cons x m1 =>
      rcases List.eq_nil_or_concat m1 with rfl | ⟨m2, y, hm⟩
      · simp [swapLoop]
      · rw [List.concat_eq_append] at hm
        subst hm
        have hlen : (x :: (m2 ++ [y])).length = m2.length + 2 := by simp
        have hlena : (a ++ x :: m2).length = a.length + m2.length + 1 := by
          simp
          omega
        have hlenb : (a ++ [y]).length = a.length + 1 := by simp
        have hlt : (a.length : Int) < ((a.length + (x :: (m2 ++ [y])).length : Nat) - 1 : Int) := by
          rw [hlen]
          push_cast
          omega
        have hj : (((a.length + (x :: (m2 ++ [y])).length : Nat) - 1 : Int)).toNat
            = (a ++ x :: m2).length := by
          rw [hlen, hlena]
          omega
        have hl : a ++ x :: (m2 ++ [y]) ++ b = (a ++ x :: m2) ++ y :: b := by simp
        have hl2 : a ++ x :: (m2 ++ [y]) ++ b = a ++ x :: (m2 ++ y :: b) := by simp
        have hgj : (a ++ x :: (m2 ++ [y]) ++ b).getD (a ++ x :: m2).length 0 = y := by
          rw [hl]
          exact getD_at_length _ _ _ _
        have hgi : (a ++ x :: (m2 ++ [y]) ++ b).getD a.length 0 = x := by
          rw [hl2]
          exact getD_at_length _ _ _ _
        have hset : ((a ++ x :: (m2 ++ [y]) ++ b).set a.length y).set (a ++ x :: m2).length x
            = (a ++ [y]) ++ m2 ++ (x :: b) := by
          rw [hl2, set_at_length]
          have h3 : a ++ y :: (m2 ++ y :: b) = (a ++ y :: m2) ++ y :: b := by simp
          rw [h3]
          have h4 : (a ++ x :: m2).length = (a ++ y :: m2).length := by simp
          rw [h4, set_at_length]
          simp
        have hi1 : ((a.length : Int) + 1) = ((a ++ [y]).length : Int) := by simp
        have hj1 : (((a.length + (x :: (m2 ++ [y])).length : Nat) - 1 : Int) - 1)
            = (((a ++ [y]).length + m2.length : Nat) - 1 : Int) := by
          rw [hlen, hlenb]
          push_cast
          omega
        have hfuel : m2.length ≤ fuel := by
          rw [hlen] at h
          omega
        unfold swapLoop
        rw [if_pos hlt, hj, Int.toNat_ofNat, hgj, hgi, hset, hi1, hj1,
          ih (a ++ [y]) m2 (x :: b) hfuel]
        simp

theorem swapLoop_eq_reverse (runes : List Nat) :
    swapLoop runes.length runes 0 (runes.length - 1) = runes.reverse := by
  have h := swapLoop_middle runes.length [] runes [] (Nat.le_refl _)
  simpa using h

theorem decoderune_encoderune {r : Nat} (hr : ValidRune r) (rest : List Nat) :
    decoderune (encoderune r ++ rest) = (r, (encoderune r).length) := by
  obtain ⟨hmax, hsur⟩ := hr
  by_cases h1 : r ≤ 0x7F
  · have hlt : r < 0x80 := by omega
    simp [encoderune, decoderune, h1, hlt]
  by_cases h2 : r ≤ 0x7FF
  · have e : encoderune r = [0xC0 + r / 64, 0x80 + r % 64] := by
      simp [encoderune, h1, h2]
    rw [e]
    have c0 : ¬ (0xC0 + r / 64 < 0x80) := by omega
    have c1 : 0xC0 ≤ 0xC0 + r / 64 ∧ 0xC0 + r / 64 < 0xE0 := by omega
    have c2 : isCont (0x80 + r % 64) := by unfold isCont; omega
    have c3 : (0xC0 + r / 64) % 32 * 64 + (0x80 + r % 64) % 64 = r := by omega
    have c4 : 0x7F < r := by omega
    simp only [decoderune, List.cons_append, List.nil_append, c0, c1, c2, c3, c4, if_false,
      if_true, and_self, List.length_cons, List.length_nil]
  have h3 : ¬ (r > 0x10FFFF ∨ (0xD800 ≤ r ∧ r ≤ 0xDFFF)) := by
    intro h
    rcases h with h | h
    · omega
    · exact hsur h
  by_cases h4 : r ≤ 0xFFFF
  · have e : encoderune r = [0xE0 + r / 4096, 0x80 + r / 64 % 64, 0x80 + r % 64] := by
      simp only [encoderune, h1, h2, h3, h4, if_false, if_true, encode3]
    rw [e]
    have c0 : ¬ (0xE0 + r / 4096 < 0x80) := by omega
    have c1 : ¬ (0xC0 ≤ 0xE0 + r / 4096 ∧ 0xE0 + r / 4096 < 0xE0) := by omega
    have c2 : 0xE0 ≤ 0xE0 + r / 4096 ∧ 0xE0 + r / 4096 < 0xF0 := by omega
    have c3 : isCont (0x80 + r / 64 % 64) := by unfold isCont; omega
    have c4 : isCont (0x80 + r % 64) := by unfold isCont; omega
    have c5 : (0xE0 + r / 4096) % 16 * 4096 + (0x80 + r / 64 % 64) % 64 * 64
        + (0x80 + r % 64) % 64 = r := by omega
    have c6 : 0x7FF < r := by omega
    have c7 : ¬ (0xD800 ≤ r ∧ r ≤ 0xDFFF) := hsur
    simp only [decoderune, List.cons_append, List.nil_append, c0, c1, c2, c3, c4, c5, c6, c7,
      if_false, if_true, and_self, not_false_eq_true, List.length_cons, List.length_nil]
  · have e : encoderune r
        = [0xF0 + r / 262144, 0x80 + r / 4096 % 64, 0x80 + r / 64 % 64, 0x80 + r % 64] := by
      simp only [encoderune, h1, h2, h3, h4, if_false]
    rw [e]
    have c0 : ¬ (0xF0 + r / 262144 < 0x80) := by omega
    have c1 : ¬ (0xC0 ≤ 0xF0 + r / 262144 ∧ 0xF0 + r / 262144 < 0xE0) := by omega
    have c2 : ¬ (0xE0 ≤ 0xF0 + r / 262144 ∧ 0xF0 + r / 262144 < 0xF0) := by omega
    have c2b : 0xF0 ≤ 0xF0 + r / 262144 ∧ 0xF0 + r / 262144 < 0xF8 := by omega
    have c3 : isCont (0x80 + r / 4096 % 64) := by unfold isCont; omega
    have c4 : isCont (0x80 + r / 64 % 64) := by unfold isCont; omega
    have c4b : isCont (0x80 + r % 64) := by unfold isCont; omega
    have c5 : (0xF0 + r / 262144) % 8 * 262144 + (0x80 + r / 4096 % 64) % 64 * 4096
        + (0x80 + r / 64 % 64) % 64 * 64 + (0x80 + r % 64) % 64 = r := by omega
    have c6 : 0xFFFF < r := by omega
    simp only [decoderune, List.cons_append, List.nil_append, c0, c1, c2, c2b, c3, c4, c4b, c5,
      c6, hmax, if_false, if_true, and_self, List.length_cons, List.length_nil]

theorem encoderune_length_pos (r : Nat) : 0 < (encoderune r).length := by
  unfold encoderune encode3
  split_ifs <;> simp

theorem decodeAll_slicerunetostring (rs : List Nat) (hrs : ∀ r ∈ rs, ValidRune r) :
    ∀ fuel, (slicerunetostring rs).length ≤ fuel →
      decodeAll fuel (slicerunetostring rs) = rs := by
  induction rs with
  | nil =>
    intro fuel _
    cases fuel <;> rfl
  | cons r rs ih =>
    intro fuel hfuel
    have hr : ValidRune r := hrs r (List.mem_cons_self r rs)
    have hpos := encoderune_length_pos r
    simp only [slicerunetostring, List.length_append] at hfuel
    have hdec := decoderune_encoderune hr (slicerunetostring rs)
    cases fuel with
    | zero => omega
    | succ fuel =>
      have hf2 : (slicerunetostring rs).length ≤ fuel := by omega
      cases hs : encoderune r ++ slicerunetostring rs with
      | nil =>
        have hlen := congrArg List.length hs
        rw [List.length_append, List.length_nil] at hlen
        omega
      | cons b t =>
        rw [hs] at hdec
        simp only [slicerunetostring, hs, decodeAll, hdec]
        rw [← hs, List.drop_left]
        rw [ih (fun x hx => hrs x (List.mem_cons_of_mem r hx)) fuel hf2]

theorem stringtoslicerune_slicerunetostring (rs : List Nat) (hrs : ∀ r ∈ rs, ValidRune r) :
    stringtoslicerune (slicerunetostring rs) = rs :=
  decodeAll_slicerunetostring rs hrs _ (Nat.le_refl _)

theorem ReverseString_valid (rs : List Nat) (hrs : ∀ r ∈ rs, ValidRune r) :
    ReverseString (slicerunetostring rs) = slicerunetostring rs.reverse := by
  unfold ReverseString
  rw [stringtoslicerune_slicerunetostring rs hrs]
  have h := swapLoop_eq_reverse rs
  simp only [Int.zero_sub] at h
  rw [h]

/-- C18, as stated, fails: a Go string may hold bytes that are not UTF-8.  For the one-byte
string `0xFF` the conversion to runes yields U+FFFD, and reversing twice returns the three
bytes `EF BF BD`, not the string itself. -/
theorem C18_invalid_byte_not_restored :
    ReverseString (ReverseString [0xFF]) = [0xEF, 0xBF, 0xBD] ∧
      ReverseString (ReverseString [0xFF]) ≠ [0xFF] := by
  decide

/-- C18, amended: for every string that is valid UTF-8, that is the encoding of a sequence of
Unicode scalar values, `ReverseString(ReverseString(s))` equals `s`. -/
theorem C18_reverse_twice_valid_string (s rs : List Nat) (hrs : ∀ r ∈ rs, ValidRune r)
    (hs : s = slicerunetostring rs) :
    ReverseString (ReverseString s) = s := by
  subst hs
  have hrev : ∀ r ∈ rs.reverse, ValidRune r := fun r hr => hrs r (List.mem_reverse.1 hr)
  rw [ReverseString_valid rs hrs, ReverseString_valid rs.reverse hrev, List.reverse_reverse]

theorem C18_reverse_twice_valid_string_witness :
    (∀ r ∈ [0x68, 0xE9, 0x4E16, 0x1F600], ValidRune r) ∧
      [0x68, 0xC3, 0xA9, 0xE4, 0xB8, 0x96, 0xF0, 0x9F, 0x98, 0x80]
        = slicerunetostring [0x68, 0xE9, 0x4E16, 0x1F600] ∧
      ReverseString [0x68, 0xC3, 0xA9, 0xE4, 0xB8, 0x96, 0xF0, 0x9F, 0x98, 0x80]
        = [0xF0, 0x9F, 0x98, 0x80, 0xE4, 0xB8, 0x96, 0xC3, 0xA9, 0x68] ∧
      ReverseString (ReverseString [0x68, 0xC3, 0xA9, 0xE4, 0xB8, 0x96, 0xF0, 0x9F, 0x98, 0x80])
        = [0x68, 0xC3, 0xA9, 0xE4, 0xB8, 0x96, 0xF0, 0x9F, 0x98, 0x80] :=
  ⟨by decide, by decide, by decide,
   C18_reverse_twice_valid_string [0x68, 0xC3, 0xA9, 0xE4, 0xB8, 0x96, 0xF0, 0x9F, 0x98, 0x80]
     [0x68, 0xE9, 0x4E16, 0x1F600] (by decide) (by decide)⟩

/-! ## The counter with concurrent callers -/

theorem sum_map_set (g : Caller → Int) (l : List Caller) (i : Nat) (a b : Caller)
    (h : l[i]? = some a) : ((l.set i b).map g).sum = (l.map g).sum - g a + g b := by
  induction l generalizing i with
  | nil => simp at h
  | cons x l ih =>
    cases i with
    | zero =>
      simp only [List.getElem?_cons_zero, Option.some.injEq] at h
      subst h
      simp only [List.set_cons_zero, List.map_cons, List.sum_cons]
      omega
    | succ i =>
      simp only [List.getElem?_cons_succ] at h
      simp only [List.set_cons_succ, List.map_cons, List.sum_cons, ih i h]
      omega

theorem mem_set_cases {l : List Caller} {i : Nat} {b u : Caller} (h : u ∈ l.set i b) :
    u = b ∨ ∃ j, j ≠ i ∧ l[j]? = some u := by
  obtain ⟨j, hj⟩ := List.mem_iff_getElem?.1 h
  rw [List.getElem?_set] at hj
  by_cases hij : i = j
  · rw [if_pos hij] at hj
    by_cases hlt : i < l.length
    · rw [if_pos hlt] at hj
      exact Or.inl (Option.some.inj hj).symm
    · rw [if_neg hlt] at hj
      cases hj
  · rw [if_neg hij] at hj
    exact Or.inr ⟨j, fun h2 => hij h2.symm, hj⟩

theorem getElem?_lt {l : List Caller} {i : Nat} {t : Caller} (h : l[i]? = some t) :
    i < l.length := by
  obtain ⟨hlt, _⟩ := List.getElem?_eq_some.1 h
  exact hlt

theorem step_lock {mu : Bool} {count : Int} {callers : List Caller} {i : Nat} {t : Caller}
    (hget : callers[i]? = some t) (hrem : t.remaining ≠ 0) (hpc : t.pc = .atLock) :
    stepCaller ⟨⟨mu, count⟩, callers⟩ i
      = if mu then ⟨⟨mu, count⟩, callers⟩
        else ⟨⟨true, count⟩, callers.set i { t with pc := .atLoad }⟩ := by
  cases mu <;> simp [stepCaller, hget, hrem, hpc, SafeCounter.Lock]

theorem step_load {mu : Bool} {count : Int} {callers : List Caller} {i : Nat} {t : Caller}
    (hget : callers[i]? = some t) (hrem : t.remaining ≠ 0) (hpc : t.pc = .atLoad) :
    stepCaller ⟨⟨mu, count⟩, callers⟩ i
      = ⟨⟨mu, count⟩, callers.set i { t with pc := .atStore count }⟩ := by
  simp [stepCaller, hget, hrem, hpc]

theorem step_store {mu : Bool} {count : Int} {callers : List Caller} {i : Nat} {t : Caller}
    {tmp : Int} (hget : callers[i]? = some t) (hrem : t.remaining ≠ 0)
    (hpc : t.pc = .atStore tmp) :
    stepCaller ⟨⟨mu, count⟩, callers⟩ i
      = ⟨⟨mu, tmp + 1⟩, callers.set i { t with pc := .atUnlock }⟩ := by
  simp [stepCaller, hget, hrem, hpc]

theorem step_unlock {mu : Bool} {count : Int} {callers : List Caller} {i : Nat} {t : Caller}
    (hget : callers[i]? = some t) (hrem : t.remaining ≠ 0) (hpc : t.pc = .atUnlock) :
    stepCaller ⟨⟨mu, count⟩, callers⟩ i
      = if mu then ⟨⟨false, count⟩, callers.set i ⟨t.remaining - 1, .atLock⟩⟩
        else ⟨⟨mu, count⟩, callers⟩ := by
  cases mu <;> simp [stepCaller, hget, hrem, hpc, SafeCounter.Unlock]

theorem step_idle {w : World} {i : Nat}
    (h : w.callers[i]? = none ∨ ∃ t, w.callers[i]? = some t ∧ t.remaining = 0) :
    stepCaller w i = w := by
  rcases h with h | ⟨t, h, h0⟩
  · simp [stepCaller, h]
  · simp [stepCaller, h, h0]

theorem holder_of_inside {total : Int} {mu : Bool} {count : Int} {callers : List Caller}
    (hinv : CounterInv total ⟨⟨mu, count⟩, callers⟩) {i : Nat} {t : Caller}
    (hget : callers[i]? = some t) (hpc : t.pc ≠ PC.atLock) :
    mu = true ∧ 1 ≤ t.remaining ∧ (∀ tmp : Int, t.pc = PC.atStore tmp → tmp = count) ∧
      ∀ (j : Nat) (u : Caller), j ≠ i → callers[j]? = some u → u.pc = PC.atLock := by
  have hmu : mu = true := by
    cases mu with
    | true => rfl
    | false => exact absurd (hinv.free rfl t (List.mem_iff_getElem?.2 ⟨i, hget⟩)) hpc
  obtain ⟨h, th, hh, _, hrem, htmp, hothers⟩ := hinv.held hmu
  have hih : i = h := by
    by_contra hne
    exact hpc (hothers i t hne hget)
  subst hih
  rw [hget] at hh
  cases hh
  exact ⟨hmu, hrem, htmp, hothers⟩

theorem stepCaller_inv {total : Int} {w : World} (hinv : CounterInv total w) (i : Nat) :
    CounterInv total (stepCaller w i) := by
  obtain ⟨⟨mu, count⟩, callers⟩ := w
  cases hget : callers[i]? with
  | none =>
    rw [step_idle (Or.inl hget)]
    exact hinv
  | some t =>
    by_cases hrem : t.remaining = 0
    · rw [step_idle (Or.inr ⟨t, hget, hrem⟩)]
      exact hinv
    · have hlt := getElem?_lt hget
      have hsum : count + (callers.map credit).sum = total := hinv.sum
      cases hpc : t.pc with
      | atLock =>
        rw [step_lock hget hrem hpc]
        cases mu with
        | true => exact hinv
        | false =>
          have hfree := hinv.free rfl
          have hc1 : credit t = t.remaining := by simp [credit, hpc]
          have hc2 : credit { t with pc := PC.atLoad } = t.remaining := by simp [credit]
          refine ⟨?_, ?_, ?_⟩
          · show count + ((callers.set i { t with pc := PC.atLoad }).map credit).sum = total
            rw [sum_map_set credit callers i t _ hget]
            omega
          · intro h
            cases h
          · intro _
            refine ⟨i, { t with pc := PC.atLoad }, List.getElem?_set_self hlt, by simp,
              Nat.pos_of_ne_zero hrem, by simp, ?_⟩
            intro j u hj hu
            have hu2 : callers[j]? = some u := by
              rw [← hu]
              exact (List.getElem?_set_ne (Ne.symm hj)).symm
            exact hfree u (List.mem_iff_getElem?.2 ⟨j, hu2⟩)
      | atLoad =>
        obtain ⟨hmu, hrem1, _, hothers⟩ := holder_of_inside hinv hget (by simp [hpc])
        rw [step_load hget hrem hpc]
        have hc1 : credit t = t.remaining := by simp [credit, hpc]
        have hc2 : credit { t with pc := PC.atStore count } = t.remaining := by simp [credit]
        refine ⟨?_, ?_, ?_⟩
        · show count + ((callers.set i { t with pc := PC.atStore count }).map credit).sum = total
          rw [sum_map_set credit callers i t _ hget]
          omega
        · intro h
          rw [hmu] at h
          cases h
        · intro _
          refine ⟨i, { t with pc := PC.atStore count }, List.getElem?_set_self hlt, by simp,
            hrem1, ?_, ?_⟩
          · intro tmp htmp
            simp only [PC.atStore.injEq] at htmp
            exact htmp.symm
          · intro j u hj hu
            have hu2 : callers[j]? = some u := by
              rw [← hu]
              exact (List.getElem?_set_ne (Ne.symm hj)).symm
            exact hothers j u hj hu2
      | atStore tmp =>
        obtain ⟨hmu, hrem1, htmp, hothers⟩ := holder_of_inside hinv hget (by simp [hpc])
        have htc : tmp = count := htmp tmp hpc
        rw [step_store hget hrem hpc]
        have hc1 : credit t = t.remaining := by simp [credit, hpc]
        have hc2 : credit { t with pc := PC.atUnlock } = (t.remaining : Int) - 1 := by
          simp [credit]
        refine ⟨?_, ?_, ?_⟩
        · show tmp + 1 + ((callers.set i { t with pc := PC.atUnlock }).map credit).sum = total
          rw [sum_map_set credit callers i t _ hget]
          omega
        · intro h
          rw [hmu] at h
          cases h
        · intro _
          refine ⟨i, { t with pc := PC.atUnlock }, List.getElem?_set_self hlt, by simp,
            hrem1, by simp, ?_⟩
          intro j u hj hu
          have hu2 : callers[j]? = some u := by
            rw [← hu]
            exact (List.getElem?_set_ne (Ne.symm hj)).symm
          exact hothers j u hj hu2
      | atUnlock =>
        obtain ⟨hmu, hrem1, _, hothers⟩ := holder_of_inside hinv hget (by simp [hpc])
        rw [step_unlock hget hrem hpc, if_pos hmu]
        have hc1 : credit t = (t.remaining : Int) - 1 := by simp [credit, hpc]
        have hc2 : credit ⟨t.remaining - 1, PC.atLock⟩ = (t.remaining : Int) - 1 := by
          simp only [credit]
          omega
        refine ⟨?_, ?_, ?_⟩
        · show count + ((callers.set i ⟨t.remaining - 1, PC.atLock⟩).map credit).sum = total
          rw [sum_map_set credit callers i t _ hget]
          omega
        · intro _ u hu
          rcases mem_set_cases hu with rfl | ⟨j, hj, hu2⟩
          · rfl
          · exact hothers j u hj hu2
        · intro h
          cases h

theorem runSchedule_inv {total : Int} (sched : List Nat) :
    ∀ {w : World}, CounterInv total w → CounterInv total (runSchedule w sched) := by
  induction sched with
  | nil =>
    intro w h
    exact h
  | cons i sched ih =>
    intro w h
    exact ih (stepCaller_inv h i)

theorem startWorld_inv (N K : Nat) : CounterInv ((N : Int) * K) (startWorld N K) := by
  refine ⟨?_, ?_, ?_⟩
  · simp [startWorld, credit, List.sum_replicate]
  · intro _ t ht
    simp only [startWorld] at ht
    rw [List.eq_of_mem_replicate ht]
  · intro h
    simp [startWorld] at h

theorem finished_count {total : Int} {w : World} (hinv : CounterInv total w)
    (hfin : allFinished w) : w.counter = ⟨false, total⟩ := by
  obtain ⟨⟨mu, count⟩, callers⟩ := w
  have hmu : mu = false := by
    cases mu with
    | false => rfl
    | true =>
      obtain ⟨h, t, hh, _, hrem, _, _⟩ := hinv.held rfl
      have := hfin t (List.mem_iff_getElem?.2 ⟨h, hh⟩)
      omega
  subst hmu
  have hfree := hinv.free rfl
  have hzero : (callers.map credit).sum = 0 := by
    apply List.sum_eq_zero
    intro x hx
    obtain ⟨t, ht, rfl⟩ := List.mem_map.1 hx
    have h1 : t.pc = PC.atLock := hfree t ht
    have h2 : t.remaining = 0 := hfin t ht
    simp [credit, h1, h2]
  have hsum : count + (callers.map credit).sum = total := hinv.sum
  have hc : count = total := by omega
  subst hc
  rfl

theorem stepsLeft_sum_nonneg {total : Int} {w : World} (hinv : CounterInv total w) :
    0 ≤ (w.callers.map stepsLeft).sum := by
  obtain ⟨⟨mu, count⟩, callers⟩ := w
  apply List.sum_nonneg
  intro x hx
  obtain ⟨t, ht, rfl⟩ := List.mem_map.1 hx
  obtain ⟨i, hi⟩ := List.mem_iff_getElem?.1 ht
  by_cases hpc : t.pc = PC.atLock
  · simp only [stepsLeft, hpc]
    omega
  · obtain ⟨_, hrem, _, _⟩ := holder_of_inside hinv hi hpc
    unfold stepsLeft
    split <;> omega

theorem exists_step {total : Int} {w : World} (hinv : CounterInv total w)
    (hnot : ¬ allFinished w) :
    ∃ i, ((stepCaller w i).callers.map stepsLeft).sum = (w.callers.map stepsLeft).sum - 1 := by
  obtain ⟨⟨mu, count⟩, callers⟩ := w
  cases mu with
  | true =>
    obtain ⟨h, t, hget, hpc, hrem, _, _⟩ := hinv.held rfl
    have hrem0 : t.remaining ≠ 0 := by omega
    refine ⟨h, ?_⟩
    cases hp : t.pc with
    | atLock => exact absurd hp hpc
    | atLoad =>
      rw [step_load hget hrem0 hp]
      show ((callers.set h { t with pc := PC.atStore count }).map stepsLeft).sum = _
      rw [sum_map_set stepsLeft callers h t _ hget]
      simp only [stepsLeft, hp]
      omega
    | atStore tmp =>
      rw [step_store hget hrem0 hp]
      show ((callers.set h { t with pc := PC.atUnlock }).map stepsLeft).sum = _
      rw [sum_map_set stepsLeft callers h t _ hget]
      simp only [stepsLeft, hp]
      omega
    | atUnlock =>
      rw [step_unlock hget hrem0 hp, if_pos rfl]
      show ((callers.set h ⟨t.remaining - 1, PC.atLock⟩).map stepsLeft).sum = _
      rw [sum_map_set stepsLeft callers h t _ hget]
      simp only [stepsLeft, hp]
      omega
  | false =>
    have hfree := hinv.free rfl
    unfold allFinished at hnot
    push_neg at hnot
    obtain ⟨t, ht, hrem0⟩ := hnot
    obtain ⟨i, hget⟩ := List.mem_iff_getElem?.1 ht
    have hp : t.pc = PC.atLock := hfree t ht
    refine ⟨i, ?_⟩
    rw [step_lock hget hrem0 hp]
    show ((callers.set i { t with pc := PC.atLoad }).map stepsLeft).sum = _
    rw [sum_map_set stepsLeft callers i t _ hget]
    simp only [stepsLeft, hp]
    omega

theorem exists_finishing_schedule {total : Int} (n : Nat) :
    ∀ {w : World}, CounterInv total w → (w.callers.map stepsLeft).sum ≤ (n : Int) →
      ∃ sched, allFinished (runSchedule w sched) := by
  induction n with
  | zero =>
    intro w hinv hle
    by_cases hfin : allFinished w
    · exact ⟨[], hfin⟩
    · obtain ⟨i, hi⟩ := exists_step hinv hfin
      have := stepsLeft_sum_nonneg (stepCaller_inv hinv i)
      simp only [Nat.cast_zero] at hle
      omega
  | succ n ih =>
    intro w hinv hle
    by_cases hfin : allFinished w
    · exact ⟨[], hfin⟩
    · obtain ⟨i, hi⟩ := exists_step hinv hfin
      have hle2 : ((stepCaller w i).callers.map stepsLeft).sum ≤ (n : Int) := by
        push_cast at hle
        omega
      obtain ⟨sched, hs⟩ := ih (stepCaller_inv hinv i) hle2
      exact ⟨i :: sched, hs⟩

/-- C16: `N` goroutines each call `Inc` `K` times on a zero-valued counter, their steps
interleaved in any order.  Some schedule lets all of them finish, and whenever all of them
have finished, under whatever interleaving, `Value` returns exactly `N * K`. -/
theorem C16_no_increment_lost (N K : Nat) :
    (∃ sched, allFinished (runSchedule (startWorld N K) sched)) ∧
      ∀ sched, allFinished (runSchedule (startWorld N K) sched) →
        (runSchedule (startWorld N K) sched).counter.Value
          = some ((N : Int) * K, ⟨false, (N : Int) * K⟩) := by
  have h0 := startWorld_inv N K
  constructor
  · have hnn := stepsLeft_sum_nonneg h0
    exact exists_finishing_schedule ((startWorld N K).callers.map stepsLeft).sum.toNat h0
      (by omega)
  · intro sched hfin
    rw [finished_count (runSchedule_inv sched h0) hfin]
    rfl

theorem C16_no_increment_lost_witness :
    allFinished (runSchedule (startWorld 2 1) [0, 1, 0, 0, 1, 0, 1, 1, 1, 1]) ∧
      (runSchedule (startWorld 2 1) [0, 1, 0, 0, 1, 0, 1, 1, 1, 1]).counter.Value
        = some (((2 : Nat) : Int) * (1 : Nat), ⟨false, ((2 : Nat) : Int) * (1 : Nat)⟩) :=
  ⟨by decide, (C16_no_increment_lost 2 1).2 [0, 1, 0, 0, 1, 0, 1, 1, 1, 1] (by decide)⟩

/-! ## The error selector -/

/-- C22: for all integers `a`, `b`, `c`, `Errors` returns nil exactly when `a = b = c`, the
error "a" exactly when `a ≠ b` and `b = c`, the error "b" exactly when `a ≠ b` and `a = c`,
and the error "c" exactly in the remaining cases, `a = b ≠ c` or all three distinct; one of the
four results is returned, and no two of the four conditions hold together. -/
theorem C22_errors_by_case (a b c : Int) :
    (Errors a b c = none ↔ a = b ∧ b = c) ∧
      (Errors a b c = some "a" ↔ a ≠ b ∧ b = c) ∧
      (Errors a b c = some "b" ↔ a ≠ b ∧ a = c) ∧
      (Errors a b c = some "c" ↔ (a = b ∧ b ≠ c) ∨ (a ≠ b ∧ b ≠ c ∧ a ≠ c)) ∧
      (Errors a b c = none ∨ Errors a b c = some "a" ∨ Errors a b c = some "b" ∨
        Errors a b c = some "c") ∧
      ¬ ((a = b ∧ b = c) ∧ (a ≠ b ∧ b = c)) ∧
      ¬ ((a = b ∧ b = c) ∧ (a ≠ b ∧ a = c)) ∧
      ¬ ((a = b ∧ b = c) ∧ ((a = b ∧ b ≠ c) ∨ (a ≠ b ∧ b ≠ c ∧ a ≠ c))) ∧
      ¬ ((a ≠ b ∧ b = c) ∧ (a ≠ b ∧ a = c)) ∧
      ¬ ((a ≠ b ∧ b = c) ∧ ((a = b ∧ b ≠ c) ∨ (a ≠ b ∧ b ≠ c ∧ a ≠ c))) ∧
      ¬ ((a ≠ b ∧ a = c) ∧ ((a = b ∧ b ≠ c) ∨ (a ≠ b ∧ b ≠ c ∧ a ≠ c))) := by
  have hab : ("a" : String) ≠ "b" := by decide
  have hac : ("a" : String) ≠ "c" := by decide
  have hbc : ("b" : String) ≠ "c" := by decide
  have hcb : c = b ↔ b = c := eq_comm
  have hba : b = a ↔ a = b := eq_comm
  have hca : c = a ↔ a = c := eq_comm
  by_cases h1 : a = b <;> by_cases h2 : b = c <;> by_cases h3 : a = c
  all_goals first
    | (exfalso; omega)
    | simp [Errors, h1, h2, h3, hcb, hba, hca, hab, hac, hbc, hab.symm, hac.symm, hbc.symm]

theorem C22_errors_by_case_witness :
    Errors 1 1 1 = none ∧ Errors 2 1 1 = some "a" ∧ Errors 2 1 2 = some "b" ∧
      Errors 3 3 2 = some "c" ∧ Errors 1 2 3 = some "c" :=
  ⟨(C22_errors_by_case 1 1 1).1.2 (by decide),
   (C22_errors_by_case 2 1 1).2.1.2 (by decide),
   (C22_errors_by_case 2 1 2).2.2.1.2 (by decide),
   (C22_errors_by_case 3 3 2).2.2.2.1.2 (by decide),
   (C22_errors_by_case 1 2 3).2.2.2.1.2 (by decide)⟩

/-! ## Letter counts -/

theorem mapGet_mapIncr (m : List (List Nat × Int)) (k k1 : List Nat) :
    mapGet (mapIncr m k) k1
      = if k1 = k then some ((mapGet m k).getD 0 + 1) else mapGet m k1 := by
  induction m with
  | nil =>
    by_cases h : k1 = k
    · simp [mapIncr, mapGet, h]
    · have h2 : ¬ k = k1 := fun e => h e.symm
      simp [mapIncr, mapGet, h, h2]
  | cons e m ih =>
    obtain ⟨k0, v⟩ := e
    by_cases h0 : k0 = k
    · subst h0
      by_cases h : k1 = k0
      · simp [mapIncr, mapGet, h]
      · have h2 : ¬ k0 = k1 := fun e => h e.symm
        simp [mapIncr, mapGet, h, h2]
    · by_cases h : k1 = k
      · subst h
        simp [mapIncr, mapGet, h0, ih]
      · by_cases h3 : k0 = k1
        · simp [mapIncr, mapGet, h0, h, h3]
        · simp [mapIncr, mapGet, h0, h, h3, ih]

theorem mapIncr_sum (m : List (List Nat × Int)) (k : List Nat) :
    ((mapIncr m k).map Prod.snd).sum = (m.map Prod.snd).sum + 1 := by
  induction m with
  | nil => simp [mapIncr]
  | cons e m ih =>
    obtain ⟨k0, v⟩ := e
    by_cases h0 : k0 = k
    · simp only [mapIncr, h0, if_true, List.map_cons, List.sum_cons]
      omega
    · simp only [mapIncr, h0, if_false, List.map_cons, List.sum_cons, ih]
      omega

theorem mem_keys_mapIncr (m : List (List Nat × Int)) (k k1 : List Nat) :
    k1 ∈ (mapIncr m k).map Prod.fst ↔ k1 ∈ m.map Prod.fst ∨ k1 = k := by
  induction m with
  | nil => simp [mapIncr]
  | cons e m ih =>
    obtain ⟨k0, v⟩ := e
    by_cases h0 : k0 = k
    · subst h0
      simp only [mapIncr, if_true, List.map_cons, List.mem_cons]
      tauto
    · simp only [mapIncr, h0, if_false, List.map_cons, List.mem_cons, ih]
      tauto

theorem mapIncr_nodup (m : List (List Nat × Int)) (k : List Nat)
    (h : (m.map Prod.fst).Nodup) : ((mapIncr m k).map Prod.fst).Nodup := by
  induction m with
  | nil => simp [mapIncr]
  | cons e m ih =>
    obtain ⟨k0, v⟩ := e
    simp only [List.map_cons, List.nodup_cons] at h
    by_cases h0 : k0 = k
    · simp only [mapIncr, h0, if_true, List.map_cons, List.nodup_cons]
      rw [← h0]
      exact h
    · simp only [mapIncr, h0, if_false, List.map_cons, List.nodup_cons]
      refine ⟨?_, ih h.2⟩
      intro hmem
      rcases (mem_keys_mapIncr m k k0).1 hmem with h1 | h1
      · exact h.1 h1
      · exact h0 h1

theorem encoderune_eq_space_iff (v : Nat) : encoderune v = [0x20] ↔ v = 0x20 := by
  unfold encoderune encode3
  split_ifs with h1 h2 h3 h4 <;> simp <;> omega

theorem decoderune_valid (s : List Nat) : ValidRune (decoderune s).1 := by
  have hre : ValidRune RuneError := by decide
  unfold decoderune
  split
  · exact hre
  · split_ifs with h1 h2 h3 h4
    · unfold ValidRune
      simp only
      omega
    · split
      · split_ifs with h5
        · unfold ValidRune
          simp only
          omega
        · exact hre
      · exact hre
    · split
      · split_ifs with h5
        · unfold ValidRune
          simp only
          omega
        · exact hre
      · exact hre
    · split
      · split_ifs with h5
        · unfold ValidRune
          simp only
          omega
        · exact hre
      · exact hre
    · exact hre

theorem decodeAll_valid (fuel : Nat) : ∀ (s : List Nat), ∀ r ∈ decodeAll fuel s, ValidRune r := by
  induction fuel with
  | zero =>
    intro s r hr
    simp [decodeAll] at hr
  | succ fuel ih =>
    intro s r hr
    cases s with
    | nil => simp [decodeAll] at hr
    | cons b t =>
      simp only [decodeAll, List.mem_cons] at hr
      rcases hr with rfl | hr
      · exact decoderune_valid _
      · exact ih _ r hr

theorem encoderune_injective {r1 r2 : Nat} (h1 : ValidRune r1) (h2 : ValidRune r2)
    (h : encoderune r1 = encoderune r2) : r1 = r2 := by
  have e1 := decoderune_encoderune h1 []
  have e2 := decoderune_encoderune h2 []
  rw [h, e2] at e1
  exact (congrArg Prod.fst e1).symm

theorem countLoop_get (vs : List Nat) : ∀ (m : List (List Nat × Int)) (k : List Nat),
    mapGet (countLoop vs m) k
      = if keyCount k vs = 0 then mapGet m k
        else some ((mapGet m k).getD 0 + (keyCount k vs : Int)) := by
  induction vs with
  | nil =>
    intro m k
    simp [countLoop, keyCount]
  | cons v vs ih =>
    intro m k
    by_cases hsp : encoderune v = [0x20]
    · simp only [countLoop, keyCount, hsp, ne_eq, not_true_eq_false, false_and, if_false, ih]
    · by_cases hk : encoderune v = k
      · subst hk
        simp only [countLoop, keyCount, hsp, ne_eq, not_false_eq_true, true_and, if_true, ih,
          mapGet_mapIncr, Option.getD_some]
        by_cases h0 : keyCount (encoderune v) vs = 0
        · simp [h0]
        · simp only [h0, if_false, Nat.succ_ne_zero]
          congr 1
          push_cast
          omega
      · have hk2 : ¬ k = encoderune v := fun e => hk e.symm
        simp only [countLoop, keyCount, hsp, hk, hk2, ne_eq, not_false_eq_true, and_false,
          if_true, if_false, ih, mapGet_mapIncr]

theorem countLoop_sum (vs : List Nat) : ∀ (m : List (List Nat × Int)),
    ((countLoop vs m).map Prod.snd).sum
      = (m.map Prod.snd).sum + ((vs.filter (fun v => decide (v ≠ 0x20))).length : Int) := by
  induction vs with
  | nil =>
    intro m
    simp [countLoop]
  | cons v vs ih =>
    intro m
    by_cases hsp : encoderune v = [0x20]
    · have hv : v = 0x20 := (encoderune_eq_space_iff v).1 hsp
      simp only [countLoop, hsp, ne_eq, not_true_eq_false, if_false, ih]
      rw [List.filter_cons_of_neg (by simp [hv])]
    · have hv : ¬ v = 0x20 := fun e => hsp ((encoderune_eq_space_iff v).2 e)
      simp only [countLoop, hsp, ne_eq, not_false_eq_true, if_true, ih, mapIncr_sum]
      rw [List.filter_cons_of_pos (by simpa using hv)]
      simp only [List.length_cons]
      push_cast
      omega

theorem countLoop_nodup (vs : List Nat) : ∀ (m : List (List Nat × Int)),
    (m.map Prod.fst).Nodup → ((countLoop vs m).map Prod.fst).Nodup := by
  induction vs with
  | nil =>
    intro m h
    exact h
  | cons v vs ih =>
    intro m h
    by_cases hsp : encoderune v = [0x20]
    · simp only [countLoop, hsp, ne_eq, not_true_eq_false, if_false]
      exact ih m h
    · simp only [countLoop, hsp, ne_eq, not_false_eq_true, if_true]
      exact ih _ (mapIncr_nodup m _ h)

theorem keyCount_pos {k : List Nat} {vs : List Nat} (h : keyCount k vs ≠ 0) :
    ∃ v ∈ vs, encoderune v ≠ [0x20] ∧ encoderune v = k := by
  induction vs with
  | nil => simp [keyCount] at h
  | cons v vs ih =>
    by_cases hv : encoderune v ≠ [0x20] ∧ encoderune v = k
    · exact ⟨v, List.mem_cons_self v vs, hv⟩
    · simp only [keyCount, hv, if_false] at h
      obtain ⟨u, hu, hu2⟩ := ih h
      exact ⟨u, List.mem_cons_of_mem v hu, hu2⟩

theorem keyCount_eq_count {r : Nat} (hr : ValidRune r) (hsp : r ≠ 0x20) :
    ∀ (vs : List Nat), (∀ v ∈ vs, ValidRune v) → keyCount (encoderune r) vs = vs.count r := by
  intro vs
  induction vs with
  | nil =>
    intro _
    rfl
  | cons v vs ih =>
    intro hvs
    have hv : ValidRune v := hvs v (List.mem_cons_self v vs)
    have ih2 := ih (fun u hu => hvs u (List.mem_cons_of_mem v hu))
    by_cases hvr : v = r
    · subst hvr
      have hns : encoderune v ≠ [0x20] := fun e => hsp ((encoderune_eq_space_iff v).1 e)
      simp [keyCount, hns, ih2]
    · have hne : ¬ encoderune v = encoderune r := fun e => hvr (encoderune_injective hv hr e)
      simp [keyCount, hne, ih2, List.count_cons, hvr]

/-- C21: for every string, with its characters being the runes a `range` loop over it yields,
`FuncCountLettersMap` maps the string of each character other than the space to the number of
its occurrences, has no key for the space and no key other than the strings of the non-space
characters that occur; the keys are distinct and the values add up to the number of non-space
characters. -/
theorem C21_letter_counts (s : List Nat) :
    (∀ r ∈ stringtoslicerune s, r ≠ 0x20 →
        mapGet (FuncCountLettersMap s) (encoderune r)
          = some (((stringtoslicerune s).count r : Nat) : Int)) ∧
      mapGet (FuncCountLettersMap s) [0x20] = none ∧
      (∀ k, mapGet (FuncCountLettersMap s) k ≠ none →
        ∃ r ∈ stringtoslicerune s, r ≠ 0x20 ∧ k = encoderune r) ∧
      ((FuncCountLettersMap s).map Prod.fst).Nodup ∧
      ((FuncCountLettersMap s).map Prod.snd).sum
        = (((stringtoslicerune s).filter (fun r => decide (r ≠ 0x20))).length : Int) := by
  have hvalid : ∀ v ∈ stringtoslicerune s, ValidRune v := decodeAll_valid _ s
  refine ⟨?_, ?_, ?_, ?_, ?_⟩
  · intro r hr hsp
    have hcnt := keyCount_eq_count (hvalid r hr) hsp (stringtoslicerune s) hvalid
    have hpos : (stringtoslicerune s).count r ≠ 0 := by
      have := List.count_pos_iff.2 hr
      omega
    rw [FuncCountLettersMap, countLoop_get, hcnt, if_neg hpos]
    simp [mapGet]
  · have h0 : keyCount [0x20] (stringtoslicerune s) = 0 := by
      by_contra hne
      obtain ⟨v, _, h1, h2⟩ := keyCount_pos hne
      exact h1 h2
    rw [FuncCountLettersMap, countLoop_get, if_pos h0]
    rfl
  · intro k hk
    rw [FuncCountLettersMap, countLoop_get] at hk
    by_cases h0 : keyCount k (stringtoslicerune s) = 0
    · rw [if_pos h0] at hk
      exact absurd rfl hk
    · obtain ⟨v, hv, h1, h2⟩ := keyCount_pos h0
      exact ⟨v, hv, fun e => h1 ((encoderune_eq_space_iff v).2 e), h2.symm⟩
  · exact countLoop_nodup _ [] (by simp)
  · rw [FuncCountLettersMap, countLoop_sum]
    simp

theorem C21_letter_counts_witness :
    FuncCountLettersMap [104, 101, 108, 108, 111, 32, 119, 111, 114, 108, 100]
        = [([104], 1), ([101], 1), ([108], 3), ([111], 2), ([119], 1), ([114], 1), ([100], 1)] ∧
      108 ∈ stringtoslicerune [104, 101, 108, 108, 111, 32, 119, 111, 114, 108, 100] ∧
      (108 : Nat) ≠ 0x20 ∧
      mapGet (FuncCountLettersMap [104, 101, 108, 108, 111, 32, 119, 111, 114, 108, 100])
          (encoderune 108)
        = some (((stringtoslicerune
            [104, 101, 108, 108, 111, 32, 119, 111, 114, 108, 100]).count 108 : Nat) : Int) ∧
      (stringtoslicerune [104, 101, 108, 108, 111, 32, 119, 111, 114, 108, 100]).count 108 = 3 :=
  ⟨by decide, by decide, by decide,
   (C21_letter_counts [104, 101, 108, 108, 111, 32, 119, 111, 114, 108, 100]).1 108
     (by decide) (by decide),
   by decide⟩

end GoTesting
